import Mathlib

/-!
Verification of the CDAO tree input/output module (Bio/Phylo/CDAOIO.py).

The module converts between rooted phylogenetic trees (clades with optional
name, optional branch length and an ordered child list) and an RDF statement
set over the CDAO ontology.  We shallowly embed the writer (Writer.process_clade,
Writer.add_trees_to_model, Writer.write, module-level write) and the parser
(Parser.get_node_info, Parser.new_clade, Parser.parse_children,
Parser.parse_model, Parser.parse_handle_to_model) and prove the specified
properties about them.

Modelling conventions:
  - machine strings are Lean String (lists of characters);
  - Python str.replace is embedded as a fuelled character-list scan with the
    same leftmost, all-occurrences semantics;
  - Python float values are embedded as Rat; the text produced by str() on a
    float is kept abstract as a tagged literal (PyVal.numF), and str(None) as
    PyVal.noneV, so that float() applied to the rendered text recovers the
    value exactly and raises ValueError on the text of None, mirroring the
    Python behaviour (decimal rendering detail is below the level of the
    claims, which only compare values up to floating point tolerance);
  - Python exceptions are embedded with Except; dictionaries as association
    lists (most recent binding first);
  - the unbounded recursion of Parser.parse_children is embedded with a fuel
    parameter; PyErr.outOfFuel marks only exhaustion of fuel and corresponds
    to no Python behaviour (theorems supply sufficient fuel).
-/

namespace CDAOIO

/-- Error classes raised by the embedded code.  keyError, valueError and
attributeError model the Python exception classes of the same names;
outOfFuel is the fuel-exhaustion marker of the embedding. -/
inductive PyErr where
  | keyError
  | valueError
  | attributeError
  | outOfFuel
deriving DecidableEq

/-- Content of an RDF literal as produced by the Python code: a plain string,
the str() rendering of a float value, or the str() rendering of None. -/
inductive PyVal where
  | str (s : String)
  | numF (q : Rat)
  | noneV
deriving DecidableEq

/-- An RDF node: a resource with a URI, or a literal. -/
inductive RNode where
  | uri (s : String)
  | lit (v : PyVal)
deriving DecidableEq

/-- An RDF statement; subjects and predicates of all statements built by this
module are resources, so they are carried directly as URI strings. -/
structure Stmt where
  subj : String
  pred : String
  obj : RNode
deriving DecidableEq

/-- Modelled from the spec: a Clade of Bio.Phylo.Newick (not under src/) is one
node of the tree, with optional name, optional branch length and an ordered
list of children; all three default to absent/empty. -/
inductive Clade where
  | mk (name : Option String) (branch_length : Option Rat) (clades : List Clade)

def Clade.name : Clade → Option String
  | .mk n _ _ => n

def Clade.branch_length : Clade → Option Rat
  | .mk _ b _ => b

def Clade.clades : Clade → List Clade
  | .mk _ _ cs => cs

def Clade.withClades : Clade → List Clade → Clade
  | .mk n b _, cs => .mk n b cs

/-- Modelled from the spec: a Newick.Tree (not under src/) wraps a root clade
and a rootedness flag; tree.clade is the root clade. -/
structure Tree where
  root : Clade
  rooted : Bool

def Tree.clade (t : Tree) : Clade := t.root

/-- Truthiness of an optional Python string (None and the empty string are
falsy), as used by the test `if clade.name:`. -/
def truthy : Option String → Bool
  | none => false
  | some s => !(s = "")

/-- str(clade.branch_length): the text of the float when the branch length is
present, the text of None otherwise. -/
def strOfBL : Option Rat → PyVal
  | some q => .numF q
  | none => .noneV

/-! ### Decimal rendering of counters ('%s' % n for a natural number) -/

/-- Character of a decimal digit. -/
def digitChar (d : Nat) : Char := Char.ofNat (48 + d)

/-- Fuelled digit extraction; with fuel at least n it yields the decimal
digits of n, most significant first (empty for n = 0). -/
def natStrAux : Nat → Nat → List Char
  | 0, _ => []
  | fuel+1, n => if n = 0 then [] else natStrAux fuel (n / 10) ++ [digitChar (n % 10)]

/-- Decimal rendering of a natural number, embedding the Python string
formatting '%s' % counter. -/
def natStr (n : Nat) : String :=
  if n = 0 then "0" else ⟨natStrAux n n⟩

/-- A minted local identifier such as node7, edge3, tu1, tree1,
edge_annotation3. -/
def mkId (kind : String) (i : Nat) : String := kind ++ natStr i

/-! ### Namespace resolution (Writer.qUri / Writer.nUri) -/

/-- Fuelled embedding of str.replace: replaces every occurrence of pat,
scanning left to right.  The fuel is at least the length of the scanned list
in every use, which makes the scan total and faithful. -/
def replaceF (pat rep : List Char) : Nat → List Char → List Char
  | 0, l => l
  | _+1, [] => []
  | fuel+1, c :: rest =>
    if pat.isPrefixOf (c :: rest) then
      rep ++ replaceF pat rep fuel (List.drop (pat.length - 1) rest)
    else
      c :: replaceF pat rep fuel rest

/-- s.replace(pat, rep) for a non-empty pattern. -/
def pyReplace (s pat rep : String) : String :=
  ⟨replaceF pat.data rep.data s.data.length s.data⟩

/-- The RDF_NAMESPACES table of the module. -/
def RDF_NAMESPACES : List (String × String) :=
  [("owl", "http://www.w3.org/2002/07/owl#"),
   ("cdao", "http://purl.obolibrary.org/obo/cdao.owl#"),
   ("rdf", "http://www.w3.org/1999/02/22-rdf-syntax-ns#")]

/-- Writer.qUri: replaces each namespace prefix followed by a colon with the
registered base URI. -/
def qUriS (s : String) : String :=
  RDF_NAMESPACES.foldl (fun acc pu => pyReplace acc (pu.1 ++ ":") pu.2) s

/-- Writer.nUri: appends a local name to the base URI. -/
def nUriS (base s : String) : String := base ++ s

/-- The cdao namespace URL (urls['cdao']). -/
def cdaoNS : String := "http://purl.obolibrary.org/obo/cdao.owl#"

/-- The rdf namespace URL (urls['rdf']). -/
def rdfNS : String := "http://www.w3.org/1999/02/22-rdf-syntax-ns#"

/-- The owl namespace URL (urls['owl']). -/
def owlNS : String := "http://www.w3.org/2002/07/owl#"

/-! ### Writer (output path) -/

/-- The four counters initialised to zero in Writer.__init__. -/
structure WCounters where
  node_counter : Nat
  edge_counter : Nat
  tree_counter : Nat
  tu_counter : Nat
deriving DecidableEq

def initW : WCounters := ⟨0, 0, 0, 0⟩

/-- The identities minted while processing one clade: its node id, and the
optional tree, TU and edge ids together with the data the emitted statements
carry.  process_clade computes one such record per clade. -/
structure NodeAnn where
  nid : Nat
  trid : Option Nat
  tid : Option Nat
  eid : Option Nat
  pUri : Option String
  name : Option String
  bl : Option Rat
  leaf : Bool
deriving DecidableEq

/-- The statement block built for one clade by Writer.process_clade
(the local `statements` list, source lines 329-377): rooted-tree statements,
TU statements, the node type statement, and the edge plus edge-annotation
statements. -/
def annStmts (base : String) (a : NodeAnn) : List Stmt :=
  let u := nUriS base (mkId "node" a.nid)
  (match a.trid with
   | some tk =>
     [⟨nUriS base (mkId "tree" tk), qUriS "rdf:type", .uri (qUriS "cdao:RootedTree")⟩,
      ⟨nUriS base (mkId "tree" tk), qUriS "cdao:has_root", .uri u⟩]
   | none => [])
  ++ (match a.tid with
   | some tk =>
     [⟨nUriS base (mkId "tu" tk), qUriS "rdf:type", .uri (qUriS "cdao:TU")⟩,
      ⟨u, qUriS "cdao:represents_TU", .uri (nUriS base (mkId "tu" tk))⟩,
      ⟨nUriS base (mkId "tu" tk), qUriS "rdf:label", .lit (.str (a.name.getD ""))⟩]
   | none => [])
  ++ [⟨u, qUriS "rdf:type", .uri (qUriS (if a.leaf then "cdao:TerminalNode" else "cdao:AncestralNode"))⟩]
  ++ (match a.pUri, a.eid with
   | some pu, some ek =>
     let e := nUriS base (mkId "edge" ek)
     let ea := nUriS base (mkId "edge_annotation" ek)
     [⟨e, qUriS "rdf:type", .uri (qUriS "cdao:Directed_Edge")⟩,
      ⟨e, qUriS "cdao:has_Parent_Node", .uri (nUriS base pu)⟩,
      ⟨e, qUriS "cdao:has_Child_Node", .uri u⟩,
      ⟨u, qUriS "cdao:belongs_to_Edge_as_Child", .uri e⟩,
      ⟨u, qUriS "cdao:has_Parent", .uri (nUriS base pu)⟩,
      ⟨nUriS base pu, qUriS "cdao:belongs_to_Edge_as_Parent", .uri e⟩,
      ⟨ea, qUriS "rdf:type", .uri (qUriS "cdao:EdgeLength")⟩,
      ⟨e, qUriS "cdao:has_annotation", .uri ea⟩,
      ⟨ea, qUriS "cdao:has_value", .lit (strOfBL a.bl)⟩]
   | _, _ => [])

/-- The per-clade identity minting of Writer.process_clade: bump the node
counter and, as applicable, the tree, TU and edge counters, in source order. -/
def mintAnn (c : Clade) (parentUri : Option String) (root : Bool) (w : WCounters) :
    NodeAnn × WCounters :=
  match c with
  | .mk nm bl cs =>
    let w1 : WCounters := { w with node_counter := w.node_counter + 1 }
    let trid : Option Nat := if root then some (w1.tree_counter + 1) else none
    let w2 : WCounters := if root then { w1 with tree_counter := w1.tree_counter + 1 } else w1
    let tid : Option Nat := if truthy nm then some (w2.tu_counter + 1) else none
    let w3 : WCounters := if truthy nm then { w2 with tu_counter := w2.tu_counter + 1 } else w2
    let eid : Option Nat := match parentUri with
      | some _ => some (w3.edge_counter + 1)
      | none => none
    let w4 : WCounters := match parentUri with
      | some _ => { w3 with edge_counter := w3.edge_counter + 1 }
      | none => w3
    (⟨w1.node_counter, trid, tid, eid, parentUri, nm, bl, cs.isEmpty⟩, w4)

mutual
/-- Writer.process_clade: emit the statements for this clade, then recurse
into the children passing this clade as parent.  The returned WCounters is
the mutated counter state of the Writer object. -/
def process_clade (base : String) (c : Clade) (parentUri : Option String) (root : Bool)
    (w : WCounters) : List Stmt × WCounters :=
  let aw := mintAnn c parentUri root w
  let own := annStmts base aw.1
  match c with
  | .mk _ _ cs =>
    if cs.isEmpty then (own, aw.2)
    else
      let rest := process_kids base cs (mkId "node" aw.1.nid) aw.2
      (own ++ rest.1, rest.2)

/-- The recursion of process_clade over the child list (source lines 383-386),
with parent set to the current clade and root set to False. -/
def process_kids (base : String) (cs : List Clade) (puri : String) (w : WCounters) :
    List Stmt × WCounters :=
  match cs with
  | [] => ([], w)
  | c :: rest =>
    let s1 := process_clade base c (some puri) false w
    let s2 := process_kids base rest puri s1.2
    (s1.1 ++ s2.1, s2.2)
end

/-- The statement typing the CDAO namespace as an owl:Ontology, appended once
by Writer.add_trees_to_model before any tree statements. -/
def ontologyStmt : Stmt := ⟨cdaoNS, qUriS "rdf:type", .uri (qUriS "owl:Ontology")⟩

/-- Writer.add_trees_to_model: append the ontology statement, then the
statements of every tree, threading the shared counters. -/
def add_trees_to_model (base : String) (trees : List Tree) (w : WCounters) :
    List Stmt × WCounters :=
  trees.foldl
    (fun mw t =>
      let s := process_clade base t.clade none true mw.2
      (mw.1 ++ s.1, s.2))
    ([ontologyStmt], w)

/-- Writer.serialize_model: writes the serialized model to the handle and
returns self.tree_counter (the serialization text itself is produced by the
external RDF library and is not part of the model). -/
def serialize_model (w : WCounters) : Nat := w.tree_counter

/-- Writer.write: builds the model, serializes it, and falls off the end of
the function, so its value is Python None (the value returned by
serialize_model is discarded).  The first component is the built model and
final counters. -/
def Writer.write (trees : List Tree) (base_uri : String) :
    (List Stmt × WCounters) × Option Nat :=
  let mw := add_trees_to_model base_uri trees initW
  let _ := serialize_model mw.2
  (mw, none)

/-- Module-level write(trees, handle): delegates to Writer(trees).write and
returns its value. -/
def write (trees : List Tree) : Option Nat :=
  (Writer.write trees "").2

/-! ### Parser (input path)

The two SPARQL queries of Parser.parse_model and Parser.get_node_info are
embedded by their pattern semantics over the statement list: a row per
matching combination, with OPTIONAL blocks as left joins contributing an
unbound (none) cell when they match nothing.  The UNION yields the rows of
its first branch and then those of its second branch; within a branch, rows
follow statement order (the store guarantees no order, so the embedding fixes
this one). -/

/-- The objects of all statements with the given subject and predicate. -/
def objsOf (m : List Stmt) (s p : String) : List RNode :=
  m.filterMap fun st => if st.subj = s ∧ st.pred = p then some st.obj else none

/-- The subjects of all rdf:type statements with the given class object. -/
def typeSubjects (m : List Stmt) (ty : String) : List String :=
  m.filterMap fun st =>
    if st.pred = qUriS "rdf:type" ∧ st.obj = .uri ty then some st.subj else none

/-- Whether the model contains an rdf:type statement typing s with ty. -/
def typed (m : List Stmt) (s ty : String) : Bool :=
  m.contains ⟨s, qUriS "rdf:type", .uri ty⟩

/-- The URI of a resource node (a literal cannot stand as a subject). -/
def uriOf : RNode → Option String
  | .uri s => some s
  | .lit _ => none

/-- The `?node a cdao:AncestralNode UNION ?node a cdao:TerminalNode` part of
the node query. -/
def unionNodes (m : List Stmt) : List String :=
  typeSubjects m (qUriS "cdao:AncestralNode") ++ typeSubjects m (qUriS "cdao:TerminalNode")

/-- Matches of the first OPTIONAL block: parent node and branch-length
literal reached through has_Parent, belongs_to_Edge_as_Child, has_annotation
(to a node typed cdao:EdgeLength) and has_value. -/
def parentBLCombos (m : List Stmt) (n : String) : List (RNode × RNode) :=
  (objsOf m n (qUriS "cdao:has_Parent")).flatMap fun pN =>
    (objsOf m n (qUriS "cdao:belongs_to_Edge_as_Child")).flatMap fun eN =>
      match uriOf eN with
      | none => []
      | some e =>
        (objsOf m e (qUriS "cdao:has_annotation")).flatMap fun aN =>
          match uriOf aN with
          | none => []
          | some a =>
            if typed m a (qUriS "cdao:EdgeLength") then
              (objsOf m a (qUriS "cdao:has_value")).map fun v => (pN, v)
            else []

/-- Matches of the second OPTIONAL block: labels reached through
represents_TU and rdf:label. -/
def labelCombos (m : List Stmt) (n : String) : List RNode :=
  (objsOf m n (qUriS "cdao:represents_TU")).flatMap fun tN =>
    match uriOf tN with
    | none => []
    | some tu => objsOf m tu (qUriS "rdf:label")

/-- Left-join of one OPTIONAL block: one all-unbound row when nothing
matches, otherwise one row per match. -/
def leftJoin {α : Type} : List α → List (Option α)
  | [] => [none]
  | xs => xs.map some

/-- One result row of the node query: the node, the optional
(parent, branch length) binding pair, and the optional label binding. -/
structure Row1 where
  node : String
  parentBL : Option (RNode × RNode)
  label : Option RNode
deriving DecidableEq

/-- The result rows of the node query of get_node_info. -/
def query1Rows (m : List Stmt) : List Row1 :=
  (unionNodes m).flatMap fun n =>
    (leftJoin (parentBLCombos m n)).flatMap fun pb =>
      (leftJoin (labelCombos m n)).map fun lb => ⟨n, pb, lb⟩

/-- One Node Info Record: optional label and optional branch length. -/
structure NodeRec where
  label : Option String
  branch_length : Option Rat
deriving DecidableEq

/-- literal_value['string'] of a result node: the text of a literal, None for
a resource. -/
def litString : RNode → Option String
  | .uri _ => none
  | .lit (.str s) => some s
  | .lit (.numF q) => some (toString q)
  | .lit .noneV => some "None"

/-- float() applied to the text of a result node: recovers the value of a
float literal, raises ValueError on the text of None (and on any other
non-numeric text). -/
def pyFloat : RNode → Except PyErr Rat
  | .lit (.numF q) => .ok q
  | _ => .error .valueError

/-- str() of a result node: the URI text of a resource, the text of a
literal. -/
def strOfNode : RNode → String
  | .uri s => s
  | .lit v => (litString (.lit v)).getD ""

/-- Association-list lookup, most recent binding first (a Python dict). -/
def lookupA {α : Type} (l : List (String × α)) (k : String) : Option α :=
  List.lookup k l

/-- self.parents[parent].append(node), creating the entry if missing. -/
def appendChild (par : List (String × List String)) (p c : String) :
    List (String × List String) :=
  (p, ((lookupA par p).getD []) ++ [c]) :: par

/-- Processing of one query row in Parser.get_node_info: build the record
from the label and branch-length bindings and record the node under its
parent. -/
def applyRow (acc : (List (String × NodeRec)) × (List (String × List String)))
    (row : Row1) :
    Except PyErr ((List (String × NodeRec)) × (List (String × List String))) := do
  let r1 : NodeRec := match row.label with
    | some ln => ⟨litString ln, none⟩
    | none => ⟨none, none⟩
  let r2 : NodeRec ← match row.parentBL with
    | some pb => do
      let q ← pyFloat pb.2
      pure ⟨r1.label, some q⟩
    | none => pure r1
  let par : List (String × List String) := match row.parentBL with
    | some pb => appendChild acc.2 (strOfNode pb.1) row.node
    | none => acc.2
  pure ((row.node, r2) :: acc.1, par)

/-- Parser.get_node_info: run the node query and fold its rows into the
node_info dictionary and the parents adjacency dictionary. -/
def get_node_info (m : List Stmt) :
    Except PyErr ((List (String × NodeRec)) × (List (String × List String))) :=
  (query1Rows m).foldlM applyRow ([], [])

/-- Parser.new_clade: builds a childless Clade from the Node Info Record of
the given node; raises KeyError when the node has no record. -/
def new_clade (ni : List (String × NodeRec)) (node : String) : Except PyErr Clade :=
  match lookupA ni node with
  | none => .error .keyError
  | some r => .ok (.mk r.label r.branch_length [])

/-- The child list looked up by Parser.parse_children: the parents entry when
present, the empty list otherwise. -/
def childrenOf (par : List (String × List String)) (node : String) : List String :=
  (lookupA par node).getD []

/-- The loop body of parse_children over the looked-up child list; the
recursive descent into a child is the passed-in function (parse_children one
fuel step down). -/
def parseKidsGo (recur : String → Except PyErr (List Clade))
    (ni : List (String × NodeRec)) : List String → Except PyErr (List Clade)
  | [] => .ok []
  | ch :: rest => do
    let c ← new_clade ni ch
    let cs ← recur ch
    let others ← parseKidsGo recur ni rest
    .ok (c.withClades cs :: others)

/-- Parser.parse_children: recursively build the clades of all children of
the given node.  The fuel only bounds the recursion depth of the embedding. -/
def parse_children (ni : List (String × NodeRec)) (par : List (String × List String)) :
    Nat → String → Except PyErr (List Clade)
  | 0, _ => .error .outOfFuel
  | fuel+1, node => parseKidsGo (parse_children ni par fuel) ni (childrenOf par node)

/-- The parse_children loop over a child list at a given fuel. -/
def parseKids (ni : List (String × NodeRec)) (par : List (String × List String))
    (fuel : Nat) (l : List String) : Except PyErr (List Clade) :=
  parseKidsGo (parse_children ni par fuel) ni l

/-- The result rows of the root query of parse_model: a (tree, root) pair per
combination of an rdf:type cdao:RootedTree statement and a cdao:has_root
statement. -/
def rootPairs (m : List Stmt) : List (String × String) :=
  (typeSubjects m (qUriS "cdao:RootedTree")).flatMap fun tr =>
    (objsOf m tr (qUriS "cdao:has_root")).filterMap fun r =>
      match uriOf r with
      | some ru => some (tr, ru)
      | none => none

/-- The loop of parse_model over the root-query rows, yielding one tree per
row. -/
def parseRoots (rooted : Bool) (fuel : Nat) (ni : List (String × NodeRec))
    (par : List (String × List String)) :
    List (String × String) → Except PyErr (List Tree)
  | [] => .ok []
  | pr :: rest => do
    let c ← new_clade ni pr.2
    let cs ← parse_children ni par fuel pr.2
    let others ← parseRoots rooted fuel ni par rest
    .ok (⟨c.withClades cs, rooted⟩ :: others)

/-- Parser.parse_model: collect node information, then build one tree per
RootedTree entity of the model. -/
def parse_model (rooted : Bool) (fuel : Nat) (m : List Stmt) : Except PyErr (List Tree) := do
  let nipar ← get_node_info m
  parseRoots rooted fuel nipar.1 nipar.2 (rootPairs m)

/-! ### Parser handle plumbing (parse / parse_handle_to_model / from_string) -/

/-- A file-like handle: its content, and its name attribute when it has one
(an in-memory StringIO buffer has none). -/
structure Handle where
  name : Option String
  content : String

/-- Parser.from_string: wraps the text in an in-memory buffer, which carries
no name attribute. -/
def Parser.from_string (treetext : String) : Handle := ⟨none, treetext⟩

/-- os.path.abspath, external to the module (the produced path depends on the
process working directory; no claim depends on its text). -/
def abspathF (s : String) : String := s

/-- The base-URI resolution of Parser.parse_handle_to_model: an explicit
base_uri keyword wins; otherwise handle.name is dereferenced, which raises
AttributeError when the handle has no name attribute. -/
def resolve_base_uri (h : Handle) (base_uri : Option String) : Except PyErr String :=
  match base_uri with
  | some u => .ok u
  | none =>
    match h.name with
    | some nm => .ok ("file://" ++ abspathF nm)
    | none => .error .attributeError

/-- Parser.parse_handle_to_model followed by its final parse_model callment:
resolve the base URI, load the handle content into the model through the
external RDF text parser (passed as loadStmts), and parse the model.  The
AttributeError of the base-URI step precedes any statement loading. -/
def parse_handle_to_model (loadStmts : String → String → List Stmt) (h : Handle)
    (base_uri : Option String) (rooted : Bool) (fuel : Nat) :
    Except PyErr (List Tree) := do
  let buri ← resolve_base_uri h base_uri
  let stmts := loadStmts h.content buri
  parse_model rooted fuel stmts

/-! ### Proof-side ghost structures

The following definitions do not embed source code; they are the measures,
id-assignment views and reordering functions the theorems are stated and
proved with. -/

mutual
/-- Number of clades of a tree / forest. -/
def csize : Clade → Nat
  | .mk _ _ cs => 1 + fsize cs

def fsize : List Clade → Nat
  | [] => 0
  | c :: rest => csize c + fsize rest
end

mutual
/-- Number of clades with a truthy name (those minting a TU id). -/
def ctu : Clade → Nat
  | .mk nm _ cs => (if truthy nm then 1 else 0) + ftu cs

def ftu : List Clade → Nat
  | [] => 0
  | c :: rest => ctu c + ftu rest
end

/-- The full URI of a minted node id. -/
def nodeU (base : String) (k : Nat) : String := nUriS base (mkId "node" k)

/-- The full URI of a minted edge id. -/
def edgeU (base : String) (k : Nat) : String := nUriS base (mkId "edge" k)

/-- The full URI of a minted edge-annotation id. -/
def eannU (base : String) (k : Nat) : String := nUriS base (mkId "edge_annotation" k)

/-- The full URI of a minted TU id. -/
def tuU (base : String) (k : Nat) : String := nUriS base (mkId "tu" k)

/-- The full URI of a minted tree id. -/
def treeU (base : String) (k : Nat) : String := nUriS base (mkId "tree" k)

/-- The id-annotated view of a processed tree: each node carries the NodeAnn
minted for it by process_clade. -/
inductive ACl where
  | node (a : NodeAnn) (kids : List ACl)

def aAnn : ACl → NodeAnn
  | .node a _ => a

def aKids : ACl → List ACl
  | .node _ ks => ks

mutual
/-- Preorder annotation lists of an annotated tree / forest. -/
def flattenA : ACl → List NodeAnn
  | .node a ks => a :: flattenF ks

def flattenF : List ACl → List NodeAnn
  | [] => []
  | k :: rest => flattenA k ++ flattenF rest
end

mutual
/-- The id assignment performed by process_clade, as an annotated tree; the
parent is carried as the parent node id. -/
def annotateT (c : Clade) (pj : Option Nat) (root : Bool) (w : WCounters) :
    ACl × WCounters :=
  let aw := mintAnn c (pj.map fun j => mkId "node" j) root w
  match c with
  | .mk _ _ cs =>
    if cs.isEmpty then (.node aw.1 [], aw.2)
    else
      let rest := annotateKidsT cs aw.1.nid aw.2
      (.node aw.1 rest.1, rest.2)

def annotateKidsT (cs : List Clade) (pj : Nat) (w : WCounters) :
    List ACl × WCounters :=
  match cs with
  | [] => ([], w)
  | c :: rest =>
    let s1 := annotateT c (some pj) false w
    let s2 := annotateKidsT rest pj s1.2
    (s1.1 :: s2.1, s2.2)
end

mutual
/-- All subtrees of an annotated tree / forest, the tree itself first. -/
def subtreesA : ACl → List ACl
  | .node a ks => .node a ks :: subtreesF ks

def subtreesF : List ACl → List ACl
  | [] => []
  | k :: rest => subtreesA k ++ subtreesF rest
end

mutual
/-- The child reordering the reconstruction produces: at every node the
internal children come first, then the terminal children, otherwise in
original order. -/
def shuffleW : Clade → Clade
  | .mk n b cs => .mk n b (shuffleInn cs ++ shuffleTer cs)

def shuffleInn : List Clade → List Clade
  | [] => []
  | c :: rest =>
    if c.clades.isEmpty then shuffleInn rest else shuffleW c :: shuffleInn rest

def shuffleTer : List Clade → List Clade
  | [] => []
  | c :: rest =>
    if c.clades.isEmpty then shuffleW c :: shuffleTer rest else shuffleTer rest
end

mutual
/-- Well-formedness of a non-root subtree for the round trip: its branch
length is present, its name is not the empty string, and its children are
again well-formed. -/
def goodN : Clade → Bool
  | .mk nm bl cs => bl.isSome && decide (nm ≠ some "") && goodF cs

def goodF : List Clade → Bool
  | [] => true
  | c :: rest => goodN c && goodF rest
end

/-- Well-formedness of a root clade for the round trip: no branch length (the
writer never emits one for the root), name not the empty string, well-formed
children. -/
def goodRoot : Clade → Bool
  | .mk nm bl cs => bl.isNone && decide (nm ≠ some "") && goodF cs

/-- The Node Info Record the parser derives for an annotated node of a
well-formed tree. -/
def recOf (a : NodeAnn) : NodeRec :=
  ⟨if truthy a.name then some (a.name.getD "") else none,
   match a.pUri, a.bl with
   | some _, some q => some q
   | _, _ => none⟩

/-- The single node-query row the parser derives for an annotated node of a
well-formed tree. -/
def rowOfAnn (base : String) (a : NodeAnn) : Row1 :=
  ⟨nodeU base a.nid,
   match a.pUri with
   | some pu => some (.uri (nUriS base pu), .lit (strOfBL a.bl))
   | none => none,
   if truthy a.name then some (.lit (.str (a.name.getD ""))) else none⟩

/-- All identifiers minted by counters counting up to the given state from a
fresh Writer (the claims about identifier distinctness are stated on it). -/
def mintedIds (w : WCounters) : List String :=
  (List.range' 1 w.node_counter).map (mkId "node")
  ++ (List.range' 1 w.edge_counter).map (mkId "edge")
  ++ (List.range' 1 w.tree_counter).map (mkId "tree")
  ++ (List.range' 1 w.tu_counter).map (mkId "tu")

/-- Componentwise order on counter states. -/
def wLE (a b : WCounters) : Prop :=
  a.node_counter ≤ b.node_counter ∧ a.edge_counter ≤ b.edge_counter
  ∧ a.tree_counter ≤ b.tree_counter ∧ a.tu_counter ≤ b.tu_counter

/-- The successive counter states of one batch write, one entry per prefix of
the tree sequence. -/
def batchStates (base : String) (trees : List Tree) (w : WCounters) : List WCounters :=
  trees.scanl (fun wa t => (process_clade base t.clade none true wa).2) w

/-- Intercalation of a separator between character-list pieces (the shape of
a string with a known set of token occurrences). -/
def interc (sep : List Char) : List (List Char) → List Char
  | [] => []
  | [a] => a
  | a :: rest => a ++ sep ++ interc sep rest

/-- A string free of every recognized namespace token. -/
def noTokens (s : String) : Prop :=
  ¬("owl:".data <:+: s.data) ∧ ¬("cdao:".data <:+: s.data) ∧ ¬("rdf:".data <:+: s.data)

/-- Well-formedness of the NodeAnn records minted by process_clade: the TU id
exists exactly for truthy names, the edge id exactly for a present parent, and
the parent reference is a node local name. -/
def WFAnn (a : NodeAnn) : Prop :=
  a.tid.isSome = truthy a.name ∧ a.eid.isSome = a.pUri.isSome
  ∧ (a.pUri = none ∨ ∃ k, a.pUri = some (mkId "node" k))

/-- The annotation facts a well-formed input tree guarantees: a branch length
wherever there is a parent, and no empty-string name. -/
def goodAnn (a : NodeAnn) : Prop :=
  (a.pUri.isSome → a.bl.isSome) ∧ a.name ≠ some ""

/-- Whether one query row is processed without a ValueError by
get_node_info. -/
def rowOK (r : Row1) : Bool :=
  match r.parentBL with
  | some pb => match pb.2 with
    | .lit (.numF _) => true
    | _ => false
  | none => true

/-- The Node Info Record built from one successfully processed query row. -/
def rowRec (r : Row1) : NodeRec :=
  ⟨(match r.label with
    | some ln => litString ln
    | none => none),
   (match r.parentBL with
    | some pb => match pb.2 with
      | .lit (.numF q) => some q
      | _ => none
    | none => none)⟩

/-- The node_info dictionary built by folding the given rows. -/
def niOf (rows : List Row1) : List (String × NodeRec) :=
  (rows.map fun r => (r.node, rowRec r)).reverse

/-- The parents dictionary built by folding the given rows. -/
def parOf (par0 : List (String × List String)) (rows : List Row1) :
    List (String × List String) :=
  rows.foldl
    (fun par r =>
      match r.parentBL with
      | some pb => appendChild par (strOfNode pb.1) r.node
      | none => par)
    par0

mutual
/-- The annotations of the children of the node with the given node id, in
preorder position (used to characterize the adjacency the parser derives). -/
def kidHeads : ACl → Nat → List NodeAnn
  | .node a ks, K => (if a.nid = K then ks.map aAnn else []) ++ kidHeadsF ks K

def kidHeadsF : List ACl → Nat → List NodeAnn
  | [], _ => []
  | k :: rest, K => kidHeads k K ++ kidHeadsF rest K
end

/-- The annotations minted when one tree is processed from a fresh Writer. -/
def annsOf (c : Clade) : List NodeAnn := flattenA (annotateT c none true initW).1

/-- The statement list process_clade emits for one tree from a fresh Writer. -/
def modelOf (base : String) (c : Clade) : List Stmt :=
  (annsOf c).flatMap (annStmts base)

mutual
/-- Number of nodes of an annotated tree / forest. -/
def csizeA : ACl → Nat
  | .node _ ks => 1 + csizeF ks

def csizeF : List ACl → Nat
  | [] => 0
  | k :: rest => csizeA k + csizeF rest
end

mutual
/-- The clade the parser rebuilds at a given annotated node of a well-formed
tree: label and branch length from the Node Info Record, children in the
order the adjacency lists deliver them (internal children first). -/
def rebuildA : ACl → Clade
  | .node a ks =>
    .mk (if truthy a.name then some (a.name.getD "") else none)
      (match a.pUri, a.bl with
       | some _, some q => some q
       | _, _ => none)
      (rebuildInn ks ++ rebuildTer ks)

def rebuildInn : List ACl → List Clade
  | [] => []
  | k :: rest => if (aAnn k).leaf then rebuildInn rest else rebuildA k :: rebuildInn rest

def rebuildTer : List ACl → List Clade
  | [] => []
  | k :: rest => if (aAnn k).leaf then rebuildA k :: rebuildTer rest else rebuildTer rest
end

/-- The statements contributed by the per-tree loop of add_trees_to_model:
the statement blocks of the trees in order, threading the counters. -/
def batchStmts (base : String) : List Tree → WCounters → List Stmt
  | [], _ => []
  | t :: ts, w =>
    let s := process_clade base t.clade none true w
    s.1 ++ batchStmts base ts s.2

/-! ## Theorems -/

/-! ### Minted identifiers are pairwise distinct -/

theorem digitChar_toNat (d : Nat) (h : d < 10) : (digitChar d).toNat = 48 + d := by
  interval_cases d <;> rfl

theorem natStrAux_foldl (fuel : Nat) :
    ∀ n, n ≤ fuel →
      (natStrAux fuel n).foldl (fun a c => 10 * a + (c.toNat - 48)) 0 = n := by
  induction fuel with
  | zero => intro n hn; interval_cases n; rfl
  | succ fuel ih =>
    intro n hn
    by_cases h0 : n = 0
    · subst h0; simp [natStrAux]
    · have hdiv : n / 10 ≤ fuel := by
        have : n / 10 < n := Nat.div_lt_self (Nat.pos_of_ne_zero h0) (by omega)
        omega
      have hmod : n % 10 < 10 := Nat.mod_lt n (by omega)
      simp only [natStrAux, if_neg h0, List.foldl_append, List.foldl_cons, List.foldl_nil]
      rw [ih (n / 10) hdiv, digitChar_toNat (n % 10) hmod]
      omega

theorem natStrAux_digits (fuel : Nat) :
    ∀ n c, c ∈ natStrAux fuel n → ∃ d, d < 10 ∧ c = digitChar d := by
  induction fuel with
  | zero => intro n c hc; simp [natStrAux] at hc
  | succ fuel ih =>
    intro n c hc
    by_cases h0 : n = 0
    · subst h0; simp [natStrAux] at hc
    · simp only [natStrAux, if_neg h0, List.mem_append, List.mem_singleton] at hc
      rcases hc with hc | hc
      · exact ih (n / 10) c hc
      · exact ⟨n % 10, Nat.mod_lt n (by omega), hc⟩

theorem natStr_digits (n : Nat) (c : Char) (hc : c ∈ (natStr n).data) :
    ∃ d, d < 10 ∧ c = digitChar d := by
  unfold natStr at hc
  by_cases h0 : n = 0
  · rw [if_pos h0] at hc
    have hc0 : c = '0' := by simpa using hc
    exact ⟨0, by omega, by rw [hc0]; decide⟩
  · rw [if_neg h0] at hc
    exact natStrAux_digits n n c hc

theorem natStr_ne_nil (n : Nat) : (natStr n).data ≠ [] := by
  unfold natStr
  by_cases h0 : n = 0
  · rw [if_pos h0]; simp
  · rw [if_neg h0]
    intro h
    have := natStrAux_foldl n n (le_refl n)
    rw [show (⟨natStrAux n n⟩ : String).data = natStrAux n n from rfl] at h
    rw [h] at this
    simp at this
    omega

theorem natStr_inj {m n : Nat} (h : natStr m = natStr n) : m = n := by
  have hd : (natStr m).data = (natStr n).data := by rw [h]
  have key : ∀ k : Nat, (natStr k).data.foldl (fun a c => 10 * a + (c.toNat - 48)) 0 = k := by
    intro k
    unfold natStr
    by_cases h0 : k = 0
    · rw [if_pos h0, h0]; rfl
    · rw [if_neg h0]
      exact natStrAux_foldl k k (le_refl k)
  have := key m
  rw [hd, key n] at this
  omega

theorem string_append_cancel {base x y : String} (h : base ++ x = base ++ y) : x = y := by
  have hd := congrArg String.data h
  rw [String.data_append, String.data_append] at hd
  exact String.ext (List.append_cancel_left hd)

theorem mkId_inj {k : String} {i j : Nat} (h : mkId k i = mkId k j) : i = j :=
  natStr_inj (string_append_cancel h)

theorem mkId_data (k : String) (i : Nat) : (mkId k i).data = k.data ++ (natStr i).data := by
  unfold mkId
  exact String.data_append k (natStr i)

theorem digit_ne_underscore (c : Char) (h : ∃ d, d < 10 ∧ c = digitChar d) : c ≠ '_' := by
  obtain ⟨d, hd, rfl⟩ := h
  intro heq
  have h1 := congrArg Char.toNat heq
  rw [digitChar_toNat d hd] at h1
  have h2 : ('_').toNat = 95 := by decide
  rw [h2] at h1
  omega

theorem mkId_node_ne_edge (i j : Nat) : mkId "node" i ≠ mkId "edge" j := by
  intro h
  have hd := congrArg String.data h
  rw [mkId_data, mkId_data] at hd
  simp at hd

theorem mkId_node_ne_tree (i j : Nat) : mkId "node" i ≠ mkId "tree" j := by
  intro h
  have hd := congrArg String.data h
  rw [mkId_data, mkId_data] at hd
  simp at hd

theorem mkId_node_ne_tu (i j : Nat) : mkId "node" i ≠ mkId "tu" j := by
  intro h
  have hd := congrArg String.data h
  rw [mkId_data, mkId_data] at hd
  simp at hd

theorem mkId_node_ne_eann (i j : Nat) : mkId "node" i ≠ mkId "edge_annotation" j := by
  intro h
  have hd := congrArg String.data h
  rw [mkId_data, mkId_data] at hd
  simp at hd

theorem mkId_edge_ne_tree (i j : Nat) : mkId "edge" i ≠ mkId "tree" j := by
  intro h
  have hd := congrArg String.data h
  rw [mkId_data, mkId_data] at hd
  simp at hd

theorem mkId_edge_ne_tu (i j : Nat) : mkId "edge" i ≠ mkId "tu" j := by
  intro h
  have hd := congrArg String.data h
  rw [mkId_data, mkId_data] at hd
  simp at hd

theorem mkId_edge_ne_eann (i j : Nat) : mkId "edge" i ≠ mkId "edge_annotation" j := by
  intro h
  have hd := congrArg String.data h
  rw [mkId_data, mkId_data] at hd
  obtain ⟨c, rest, hc⟩ : ∃ c rest, (natStr i).data = c :: rest := by
    cases hne : (natStr i).data with
    | nil => exact absurd hne (natStr_ne_nil i)
    | cons c rest => exact ⟨c, rest, rfl⟩
  rw [hc] at hd
  simp at hd
  have hdig : c ≠ '_' := digit_ne_underscore c (by
    apply natStr_digits i
    rw [hc]; exact List.mem_cons_self c rest)
  exact hdig hd.1

theorem mkId_tree_ne_tu (i j : Nat) : mkId "tree" i ≠ mkId "tu" j := by
  intro h
  have hd := congrArg String.data h
  rw [mkId_data, mkId_data] at hd
  simp at hd

theorem mkId_tree_ne_eann (i j : Nat) : mkId "tree" i ≠ mkId "edge_annotation" j := by
  intro h
  have hd := congrArg String.data h
  rw [mkId_data, mkId_data] at hd
  simp at hd

theorem mkId_tu_ne_eann (i j : Nat) : mkId "tu" i ≠ mkId "edge_annotation" j := by
  intro h
  have hd := congrArg String.data h
  rw [mkId_data, mkId_data] at hd
  simp at hd

/-! ### The ghost id assignment matches process_clade -/

theorem mintAnn_fst (c : Clade) (p : Option String) (root : Bool) (w : WCounters) :
    (mintAnn c p root w).1 =
      ⟨w.node_counter + 1,
       if root then some (w.tree_counter + 1) else none,
       if truthy c.name then some (w.tu_counter + 1) else none,
       if p.isSome then some (w.edge_counter + 1) else none,
       p, c.name, c.branch_length, c.clades.isEmpty⟩ := by
  match c with
  | .mk nm bl cs =>
    cases root <;> cases p <;> cases htr : truthy nm <;>
      simp [mintAnn, Clade.name, Clade.branch_length, Clade.clades, htr]

theorem mintAnn_snd (c : Clade) (p : Option String) (root : Bool) (w : WCounters) :
    (mintAnn c p root w).2 =
      ⟨w.node_counter + 1,
       w.edge_counter + (if p.isSome then 1 else 0),
       w.tree_counter + (if root then 1 else 0),
       w.tu_counter + (if truthy c.name then 1 else 0)⟩ := by
  match c with
  | .mk nm bl cs =>
    cases root <;> cases p <;> cases htr : truthy nm <;>
      simp [mintAnn, Clade.name, htr]

mutual
theorem process_eq_annotate (base : String) (c : Clade) (pj : Option Nat) (root : Bool)
    (w : WCounters) :
    process_clade base c (pj.map fun j => mkId "node" j) root w
      = ((flattenA (annotateT c pj root w).1).flatMap (annStmts base),
         (annotateT c pj root w).2) := by
  match c with
  | .mk nm bl cs =>
    cases hcs : cs.isEmpty with
    | true =>
      simp [process_clade, annotateT, hcs, flattenA, flattenF]
    | false =>
      have hk := process_kids_eq_annotate base cs
        ((mintAnn (.mk nm bl cs) (pj.map fun j => mkId "node" j) root w).1.nid)
        ((mintAnn (.mk nm bl cs) (pj.map fun j => mkId "node" j) root w).2)
      simp only [process_clade, annotateT, hcs, Bool.false_eq_true, if_false, flattenA]
      rw [hk]
      simp

theorem process_kids_eq_annotate (base : String) (cs : List Clade) (pj : Nat)
    (w : WCounters) :
    process_kids base cs (mkId "node" pj) w
      = ((flattenF (annotateKidsT cs pj w).1).flatMap (annStmts base),
         (annotateKidsT cs pj w).2) := by
  match cs with
  | [] => simp [process_kids, annotateKidsT, flattenF]
  | c :: rest =>
    have h1 : process_clade base c (some (mkId "node" pj)) false w
        = ((flattenA (annotateT c (some pj) false w).1).flatMap (annStmts base),
           (annotateT c (some pj) false w).2) :=
      process_eq_annotate base c (some pj) false w
    have h2 := process_kids_eq_annotate base rest pj (annotateT c (some pj) false w).2
    simp only [process_kids, annotateKidsT, flattenF]
    rw [h1, h2]
    simp
end

mutual
theorem annotateT_counters (c : Clade) (pj : Option Nat) (root : Bool) (w : WCounters) :
    (annotateT c pj root w).2
      = ⟨w.node_counter + csize c,
         w.edge_counter + (if pj.isSome then csize c else csize c - 1),
         w.tree_counter + (if root then 1 else 0),
         w.tu_counter + ctu c⟩ := by
  match c with
  | .mk nm bl cs =>
    cases hcs : cs.isEmpty with
    | true =>
      have hnil : cs = [] := by
        cases cs with
        | nil => rfl
        | cons a l => simp [List.isEmpty] at hcs
      subst hnil
      simp only [annotateT, List.isEmpty_nil, if_pos, mintAnn_snd, csize, fsize, ctu, ftu,
        Clade.name]
      cases pj <;> simp
    | false =>
      have hk := annotateKidsT_counters cs
        ((mintAnn (.mk nm bl cs) (pj.map fun j => mkId "node" j) root w).1.nid)
        ((mintAnn (.mk nm bl cs) (pj.map fun j => mkId "node" j) root w).2)
      simp only [annotateT, hcs, Bool.false_eq_true, if_false]
      rw [hk, mintAnn_snd]
      have hpos : 1 ≤ csize (.mk nm bl cs) := by
        simp [csize]
      simp only [csize, ctu, Clade.name]
      cases pj <;> simp <;> omega

theorem annotateKidsT_counters (cs : List Clade) (pj : Nat) (w : WCounters) :
    (annotateKidsT cs pj w).2
      = ⟨w.node_counter + fsize cs, w.edge_counter + fsize cs,
         w.tree_counter, w.tu_counter + ftu cs⟩ := by
  match cs with
  | [] => simp [annotateKidsT, fsize, ftu]
  | c :: rest =>
    have h1 := annotateT_counters c (some pj) false w
    have h2 := annotateKidsT_counters rest pj (annotateT c (some pj) false w).2
    simp only [annotateKidsT]
    rw [h2, h1]
    have hpos : 1 ≤ csize c := by
      match c with
      | .mk nm bl cs2 => simp [csize]
    simp only [fsize, ftu, Option.isSome_some, if_pos]
    simp
    omega
end

theorem annotateT_ann (c : Clade) (pj : Option Nat) (root : Bool) (w : WCounters) :
    aAnn (annotateT c pj root w).1 = (mintAnn c (pj.map fun j => mkId "node" j) root w).1 := by
  match c with
  | .mk nm bl cs =>
    cases hcs : cs.isEmpty <;> simp [annotateT, hcs, aAnn]

theorem annotateT_kids (c : Clade) (pj : Option Nat) (root : Bool) (w : WCounters) :
    aKids (annotateT c pj root w).1
      = (annotateKidsT c.clades
          (mintAnn c (pj.map fun j => mkId "node" j) root w).1.nid
          (mintAnn c (pj.map fun j => mkId "node" j) root w).2).1 := by
  match c with
  | .mk nm bl cs =>
    cases hcs : cs.isEmpty with
    | true =>
      have hnil : cs = [] := by
        cases cs with
        | nil => rfl
        | cons a l => simp [List.isEmpty] at hcs
      subst hnil
      simp [annotateT, annotateKidsT, aKids, Clade.clades]
    | false =>
      simp [annotateT, hcs, aKids, Clade.clades]

theorem flattenA_cons (x : ACl) : flattenA x = aAnn x :: flattenF (aKids x) := by
  match x with
  | .node a ks => rfl

mutual
theorem flattenA_nids (c : Clade) (pj : Option Nat) (root : Bool) (w : WCounters) :
    (flattenA (annotateT c pj root w).1).map NodeAnn.nid
      = List.range' (w.node_counter + 1) (csize c) := by
  match c with
  | .mk nm bl cs =>
    cases hcs : cs.isEmpty with
    | true =>
      have hnil : cs = [] := by
        cases cs with
        | nil => rfl
        | cons a l => simp [List.isEmpty] at hcs
      subst hnil
      simp [annotateT, flattenA, flattenF, mintAnn_fst, csize, fsize]
    | false =>
      have hk := flattenF_nids cs
        ((mintAnn (.mk nm bl cs) (pj.map fun j => mkId "node" j) root w).1.nid)
        ((mintAnn (.mk nm bl cs) (pj.map fun j => mkId "node" j) root w).2)
      simp only [annotateT, hcs, Bool.false_eq_true, if_false, flattenA, List.map_cons]
      rw [hk, mintAnn_fst, mintAnn_snd]
      simp only [csize]
      rw [show 1 + fsize cs = fsize cs + 1 from by omega, List.range'_succ]

theorem flattenF_nids (cs : List Clade) (pj : Nat) (w : WCounters) :
    (flattenF (annotateKidsT cs pj w).1).map NodeAnn.nid
      = List.range' (w.node_counter + 1) (fsize cs) := by
  match cs with
  | [] => simp [annotateKidsT, flattenF, fsize]
  | c :: rest =>
    have h1 := flattenA_nids c (some pj) false w
    have h2 := flattenF_nids rest pj (annotateT c (some pj) false w).2
    simp only [annotateKidsT, flattenF, List.map_append]
    rw [h1, h2, annotateT_counters]
    simp only [fsize]
    rw [show w.node_counter + csize c + 1 = w.node_counter + 1 + csize c from by omega,
      Nat.add_comm (csize c) (fsize rest)]
    exact List.range'_append_1 (w.node_counter + 1) (csize c) (fsize rest)
end

mutual
theorem flattenA_eids (c : Clade) (pj : Option Nat) (root : Bool) (w : WCounters) :
    (flattenA (annotateT c pj root w).1).filterMap NodeAnn.eid
      = List.range' (w.edge_counter + 1) (if pj.isSome then csize c else csize c - 1) := by
  match c with
  | .mk nm bl cs =>
    cases hcs : cs.isEmpty with
    | true =>
      have hnil : cs = [] := by
        cases cs with
        | nil => rfl
        | cons a l => simp [List.isEmpty] at hcs
      subst hnil
      cases pj <;>
        simp [annotateT, flattenA, flattenF, mintAnn_fst, csize, fsize, List.filterMap]
    | false =>
      have hk := flattenF_eids cs
        ((mintAnn (.mk nm bl cs) (pj.map fun j => mkId "node" j) root w).1.nid)
        ((mintAnn (.mk nm bl cs) (pj.map fun j => mkId "node" j) root w).2)
      simp only [annotateT, hcs, Bool.false_eq_true, if_false, flattenA, List.filterMap_cons]
      rw [mintAnn_fst, mintAnn_snd] at *
      cases pj with
      | none =>
        simp only [Option.map_none, Option.isSome_none, Bool.false_eq_true, if_false]
        rw [hk]
        simp [csize]
      | some j =>
        simp only [Option.map_some, Option.isSome_some, if_pos]
        rw [hk]
        simp only [csize]
        rw [show 1 + fsize cs = fsize cs + 1 from by omega, List.range'_succ]
        simp

theorem flattenF_eids (cs : List Clade) (pj : Nat) (w : WCounters) :
    (flattenF (annotateKidsT cs pj w).1).filterMap NodeAnn.eid
      = List.range' (w.edge_counter + 1) (fsize cs) := by
  match cs with
  | [] => simp [annotateKidsT, flattenF, fsize]
  | c :: rest =>
    have h1 := flattenA_eids c (some pj) false w
    have h2 := flattenF_eids rest pj (annotateT c (some pj) false w).2
    simp only [annotateKidsT, flattenF, List.filterMap_append]
    rw [h1, h2, annotateT_counters]
    simp only [fsize, Option.isSome_some, if_pos]
    rw [show w.edge_counter + csize c + 1 = w.edge_counter + 1 + csize c from by omega,
      Nat.add_comm (csize c) (fsize rest)]
    exact List.range'_append_1 (w.edge_counter + 1) (csize c) (fsize rest)
end

mutual
theorem flattenA_tids (c : Clade) (pj : Option Nat) (root : Bool) (w : WCounters) :
    (flattenA (annotateT c pj root w).1).filterMap NodeAnn.tid
      = List.range' (w.tu_counter + 1) (ctu c) := by
  match c with
  | .mk nm bl cs =>
    cases hcs : cs.isEmpty with
    | true =>
      have hnil : cs = [] := by
        cases cs with
        | nil => rfl
        | cons a l => simp [List.isEmpty] at hcs
      subst hnil
      cases htr : truthy nm <;>
        simp [annotateT, flattenA, flattenF, mintAnn_fst, ctu, ftu, Clade.name, htr,
          List.filterMap]
    | false =>
      have hk := flattenF_tids cs
        ((mintAnn (.mk nm bl cs) (pj.map fun j => mkId "node" j) root w).1.nid)
        ((mintAnn (.mk nm bl cs) (pj.map fun j => mkId "node" j) root w).2)
      cases htr : truthy nm with
      | false =>
        simp only [annotateT, hcs, Bool.false_eq_true, if_false, flattenA, List.filterMap_cons]
        rw [mintAnn_fst, mintAnn_snd] at hk ⊢
        simp only [Clade.name, htr, Bool.false_eq_true, if_false] at hk ⊢
        rw [hk]
        simp [ctu, Clade.name, htr]
      | true =>
        simp only [annotateT, hcs, Bool.false_eq_true, if_false, flattenA, List.filterMap_cons]
        rw [mintAnn_fst, mintAnn_snd] at hk ⊢
        simp only [Clade.name, htr, if_pos] at hk ⊢
        rw [hk]
        simp only [ctu, Clade.name, htr, if_pos]
        rw [show 1 + ftu cs = ftu cs + 1 from by omega, List.range'_succ]

theorem flattenF_tids (cs : List Clade) (pj : Nat) (w : WCounters) :
    (flattenF (annotateKidsT cs pj w).1).filterMap NodeAnn.tid
      = List.range' (w.tu_counter + 1) (ftu cs) := by
  match cs with
  | [] => simp [annotateKidsT, flattenF, ftu]
  | c :: rest =>
    have h1 := flattenA_tids c (some pj) false w
    have h2 := flattenF_tids rest pj (annotateT c (some pj) false w).2
    simp only [annotateKidsT, flattenF, List.filterMap_append]
    rw [h1, h2, annotateT_counters]
    simp only [ftu]
    rw [show w.tu_counter + ctu c + 1 = w.tu_counter + 1 + ctu c from by omega,
      Nat.add_comm (ctu c) (ftu rest)]
    exact List.range'_append_1 (w.tu_counter + 1) (ctu c) (ftu rest)
end

mutual
theorem flattenA_trids (c : Clade) (pj : Option Nat) (root : Bool) (w : WCounters) :
    (flattenA (annotateT c pj root w).1).filterMap NodeAnn.trid
      = if root then [w.tree_counter + 1] else [] := by
  match c with
  | .mk nm bl cs =>
    cases hcs : cs.isEmpty with
    | true =>
      have hnil : cs = [] := by
        cases cs with
        | nil => rfl
        | cons a l => simp [List.isEmpty] at hcs
      subst hnil
      cases root <;>
        simp [annotateT, flattenA, flattenF, mintAnn_fst, List.filterMap]
    | false =>
      have hk := flattenF_trids cs
        ((mintAnn (.mk nm bl cs) (pj.map fun j => mkId "node" j) root w).1.nid)
        ((mintAnn (.mk nm bl cs) (pj.map fun j => mkId "node" j) root w).2)
      simp only [annotateT, hcs, Bool.false_eq_true, if_false, flattenA, List.filterMap_cons]
      rw [mintAnn_fst, mintAnn_snd] at hk ⊢
      cases root <;> simp at hk ⊢ <;> exact hk

theorem flattenF_trids (cs : List Clade) (pj : Nat) (w : WCounters) :
    (flattenF (annotateKidsT cs pj w).1).filterMap NodeAnn.trid = [] := by
  match cs with
  | [] => simp [annotateKidsT, flattenF]
  | c :: rest =>
    have h1 := flattenA_trids c (some pj) false w
    have h2 := flattenF_trids rest pj (annotateT c (some pj) false w).2
    simp only [annotateKidsT, flattenF, List.filterMap_append]
    rw [h1, h2]
    simp
end

/-! ### List helper lemmas -/

theorem flatMap_if_singleton {α β : Type} (p : α → Bool) (f : α → β) (l : List α) :
    (l.flatMap fun a => if p a then [f a] else []) = (l.filter p).map f := by
  induction l with
  | nil => rfl
  | cons a rest ih =>
    cases hp : p a <;> simp [List.flatMap_cons, List.filter_cons, hp, ih]

theorem nodup_map_ne {α β : Type} {l : List α} {f : α → β} (h : (l.map f).Nodup) {x y : α}
    (hx : x ∈ l) (hy : y ∈ l) (hne : x ≠ y) : f x ≠ f y := by
  induction l with
  | nil => simp at hx
  | cons a rest ih =>
    simp only [List.map_cons, List.nodup_cons] at h
    rcases List.mem_cons.mp hx with rfl | hx2
    · rcases List.mem_cons.mp hy with rfl | hy2
      · exact absurd rfl hne
      · intro heq
        exact h.1 (heq ▸ List.mem_map_of_mem f hy2)
    · rcases List.mem_cons.mp hy with rfl | hy2
      · intro heq
        exact h.1 (heq ▸ List.mem_map_of_mem f hx2)
      · exact ih h.2 hx2 hy2

theorem nodup_filterMap_some {α β : Type} {l : List α} {f : α → Option β}
    (h : (l.filterMap f).Nodup) {x y : α} (hx : x ∈ l) (hy : y ∈ l) (hne : x ≠ y) {v : β}
    (hvx : f x = some v) (hvy : f y = some v) : False := by
  induction l with
  | nil => simp at hx
  | cons a rest ih =>
    rw [List.filterMap_cons] at h
    rcases List.mem_cons.mp hx with rfl | hx2
    · rcases List.mem_cons.mp hy with rfl | hy2
      · exact hne rfl
      · rw [hvx] at h
        rw [List.nodup_cons] at h
        exact h.1 (List.mem_filterMap.mpr ⟨y, hy2, hvy⟩)
    · rcases List.mem_cons.mp hy with rfl | hy2
      · rw [hvy] at h
        rw [List.nodup_cons] at h
        exact h.1 (List.mem_filterMap.mpr ⟨x, hx2, hvx⟩)
      · cases hfa : f a with
        | none => rw [hfa] at h; exact ih h hx2 hy2
        | some b => rw [hfa, List.nodup_cons] at h; exact ih h.2 hx2 hy2

theorem flatMap_single {α β : Type} {l : List α} (hnd : l.Nodup) (g : α → List β) {a : α}
    (ha : a ∈ l) (hz : ∀ b ∈ l, b ≠ a → g b = []) : l.flatMap g = g a := by
  induction l with
  | nil => simp at ha
  | cons x rest ih =>
    rw [List.nodup_cons] at hnd
    rcases List.mem_cons.mp ha with rfl | ha2
    · have hrest : rest.flatMap g = [] := by
        apply List.flatMap_eq_nil_iff.mpr
        intro b hb
        exact hz b (List.mem_cons_of_mem a hb) (fun heq => hnd.1 (heq ▸ hb))
      simp [List.flatMap_cons, hrest]
    · have hx : g x = [] := hz x (List.mem_cons_self x rest)
        (fun heq => hnd.1 (heq ▸ ha2))
      have hrec := ih hnd.2 ha2 (fun b hb hbne => hz b (List.mem_cons_of_mem x hb) hbne)
      simp [List.flatMap_cons, hx, hrec]

theorem lookup_of_mem_nodup {α : Type} {l : List (String × α)}
    (hnd : (l.map Prod.fst).Nodup) {k : String} {v : α} (h : (k, v) ∈ l) :
    lookupA l k = some v := by
  induction l with
  | nil => simp at h
  | cons x rest ih =>
    simp only [List.map_cons, List.nodup_cons] at hnd
    rcases List.mem_cons.mp h with rfl | h2
    · simp [lookupA, List.lookup]
    · have hkx : k ≠ x.1 := by
        intro heq
        exact hnd.1 (heq ▸ List.mem_map_of_mem Prod.fst h2)
      have hbeq : (k == x.1) = false := by
        simpa using hkx
      simp only [lookupA, List.lookup, hbeq]
      exact ih hnd.2 h2

/-! ### Well-formedness of minted annotations -/

mutual
theorem flattenA_wf (c : Clade) (pj : Option Nat) (root : Bool) (w : WCounters) :
    ∀ a ∈ flattenA (annotateT c pj root w).1, WFAnn a := by
  match c with
  | .mk nm bl cs =>
    intro a ha
    rw [flattenA_cons, annotateT_ann, annotateT_kids] at ha
    rcases List.mem_cons.mp ha with rfl | ha2
    · rw [mintAnn_fst]
      refine ⟨?_, ?_, ?_⟩
      · cases htr : truthy nm <;> simp [Clade.name, htr]
      · cases pj <;> simp
      · cases pj with
        | none => exact Or.inl rfl
        | some j => exact Or.inr ⟨j, rfl⟩
    · exact flattenF_wf cs _ _ a ha2

theorem flattenF_wf (cs : List Clade) (pj : Nat) (w : WCounters) :
    ∀ a ∈ flattenF (annotateKidsT cs pj w).1, WFAnn a := by
  match cs with
  | [] => intro a ha; simp [annotateKidsT, flattenF] at ha
  | c :: rest =>
    intro a ha
    simp only [annotateKidsT, flattenF, List.mem_append] at ha
    rcases ha with ha | ha
    · exact flattenA_wf c (some pj) false w a ha
    · exact flattenF_wf rest pj _ a ha
end

mutual
theorem flattenA_good (c : Clade) (pj : Option Nat) (root : Bool) (w : WCounters)
    (hg : goodN c = true) :
    ∀ a ∈ flattenA (annotateT c pj root w).1, goodAnn a := by
  match c with
  | .mk nm bl cs =>
    simp only [goodN, Bool.and_eq_true, decide_eq_true_eq] at hg
    intro a ha
    rw [flattenA_cons, annotateT_ann, annotateT_kids] at ha
    rcases List.mem_cons.mp ha with rfl | ha2
    · rw [mintAnn_fst]
      exact ⟨fun _ => hg.1.1, hg.1.2⟩
    · exact flattenF_good cs _ _ hg.2 a ha2

theorem flattenF_good (cs : List Clade) (pj : Nat) (w : WCounters)
    (hg : goodF cs = true) :
    ∀ a ∈ flattenF (annotateKidsT cs pj w).1, goodAnn a := by
  match cs with
  | [] => intro a ha; simp [annotateKidsT, flattenF] at ha
  | c :: rest =>
    simp only [goodF, Bool.and_eq_true] at hg
    intro a ha
    simp only [annotateKidsT, flattenF, List.mem_append] at ha
    rcases ha with ha | ha
    · exact flattenA_good c (some pj) false w hg.1 a ha
    · exact flattenF_good rest pj _ hg.2 a ha
end

theorem flattenA_good_root (c : Clade) (w : WCounters) (hg : goodRoot c = true) :
    ∀ a ∈ flattenA (annotateT c none true w).1, goodAnn a := by
  match c with
  | .mk nm bl cs =>
    simp only [goodRoot, Bool.and_eq_true, decide_eq_true_eq] at hg
    intro a ha
    rw [flattenA_cons, annotateT_ann, annotateT_kids] at ha
    rcases List.mem_cons.mp ha with rfl | ha2
    · rw [mintAnn_fst]
      exact ⟨by simp, hg.1.2⟩
    · exact flattenF_good cs _ _ hg.2 a ha2


/-! ### URI disjointness simp set -/

theorem nUriS_inj {base x y : String} : nUriS base x = nUriS base y ↔ x = y :=
  ⟨string_append_cancel, fun h => by rw [h]⟩

@[simp] theorem uri_nn (base : String) (i j : Nat) :
    (nUriS base (mkId "node" i) = nUriS base (mkId "node" j)) ↔ i = j := by
  rw [nUriS_inj]
  exact ⟨mkId_inj, fun h => by rw [h]⟩

@[simp] theorem uri_ee (base : String) (i j : Nat) :
    (nUriS base (mkId "edge" i) = nUriS base (mkId "edge" j)) ↔ i = j := by
  rw [nUriS_inj]
  exact ⟨mkId_inj, fun h => by rw [h]⟩

@[simp] theorem uri_tt (base : String) (i j : Nat) :
    (nUriS base (mkId "tree" i) = nUriS base (mkId "tree" j)) ↔ i = j := by
  rw [nUriS_inj]
  exact ⟨mkId_inj, fun h => by rw [h]⟩

@[simp] theorem uri_uu (base : String) (i j : Nat) :
    (nUriS base (mkId "tu" i) = nUriS base (mkId "tu" j)) ↔ i = j := by
  rw [nUriS_inj]
  exact ⟨mkId_inj, fun h => by rw [h]⟩

@[simp] theorem uri_aa (base : String) (i j : Nat) :
    (nUriS base (mkId "edge_annotation" i) = nUriS base (mkId "edge_annotation" j)) ↔ i = j := by
  rw [nUriS_inj]
  exact ⟨mkId_inj, fun h => by rw [h]⟩

@[simp] theorem uri_ne (base : String) (i j : Nat) :
    (nUriS base (mkId "node" i) = nUriS base (mkId "edge" j)) ↔ False := by
  rw [nUriS_inj]
  simpa using mkId_node_ne_edge i j

@[simp] theorem uri_en (base : String) (i j : Nat) :
    (nUriS base (mkId "edge" i) = nUriS base (mkId "node" j)) ↔ False := by
  rw [nUriS_inj]
  simpa using (mkId_node_ne_edge j i).symm

@[simp] theorem uri_nt (base : String) (i j : Nat) :
    (nUriS base (mkId "node" i) = nUriS base (mkId "tree" j)) ↔ False := by
  rw [nUriS_inj]
  simpa using mkId_node_ne_tree i j

@[simp] theorem uri_tn (base : String) (i j : Nat) :
    (nUriS base (mkId "tree" i) = nUriS base (mkId "node" j)) ↔ False := by
  rw [nUriS_inj]
  simpa using (mkId_node_ne_tree j i).symm

@[simp] theorem uri_nu (base : String) (i j : Nat) :
    (nUriS base (mkId "node" i) = nUriS base (mkId "tu" j)) ↔ False := by
  rw [nUriS_inj]
  simpa using mkId_node_ne_tu i j

@[simp] theorem uri_un (base : String) (i j : Nat) :
    (nUriS base (mkId "tu" i) = nUriS base (mkId "node" j)) ↔ False := by
  rw [nUriS_inj]
  simpa using (mkId_node_ne_tu j i).symm

@[simp] theorem uri_na (base : String) (i j : Nat) :
    (nUriS base (mkId "node" i) = nUriS base (mkId "edge_annotation" j)) ↔ False := by
  rw [nUriS_inj]
  simpa using mkId_node_ne_eann i j

@[simp] theorem uri_an (base : String) (i j : Nat) :
    (nUriS base (mkId "edge_annotation" i) = nUriS base (mkId "node" j)) ↔ False := by
  rw [nUriS_inj]
  simpa using (mkId_node_ne_eann j i).symm

@[simp] theorem uri_et (base : String) (i j : Nat) :
    (nUriS base (mkId "edge" i) = nUriS base (mkId "tree" j)) ↔ False := by
  rw [nUriS_inj]
  simpa using mkId_edge_ne_tree i j

@[simp] theorem uri_te (base : String) (i j : Nat) :
    (nUriS base (mkId "tree" i) = nUriS base (mkId "edge" j)) ↔ False := by
  rw [nUriS_inj]
  simpa using (mkId_edge_ne_tree j i).symm

@[simp] theorem uri_eu (base : String) (i j : Nat) :
    (nUriS base (mkId "edge" i) = nUriS base (mkId "tu" j)) ↔ False := by
  rw [nUriS_inj]
  simpa using mkId_edge_ne_tu i j

@[simp] theorem uri_ue (base : String) (i j : Nat) :
    (nUriS base (mkId "tu" i) = nUriS base (mkId "edge" j)) ↔ False := by
  rw [nUriS_inj]
  simpa using (mkId_edge_ne_tu j i).symm

@[simp] theorem uri_ea (base : String) (i j : Nat) :
    (nUriS base (mkId "edge" i) = nUriS base (mkId "edge_annotation" j)) ↔ False := by
  rw [nUriS_inj]
  simpa using mkId_edge_ne_eann i j

@[simp] theorem uri_ae (base : String) (i j : Nat) :
    (nUriS base (mkId "edge_annotation" i) = nUriS base (mkId "edge" j)) ↔ False := by
  rw [nUriS_inj]
  simpa using (mkId_edge_ne_eann j i).symm

@[simp] theorem uri_tu (base : String) (i j : Nat) :
    (nUriS base (mkId "tree" i) = nUriS base (mkId "tu" j)) ↔ False := by
  rw [nUriS_inj]
  simpa using mkId_tree_ne_tu i j

@[simp] theorem uri_ut (base : String) (i j : Nat) :
    (nUriS base (mkId "tu" i) = nUriS base (mkId "tree" j)) ↔ False := by
  rw [nUriS_inj]
  simpa using (mkId_tree_ne_tu j i).symm

@[simp] theorem uri_ta (base : String) (i j : Nat) :
    (nUriS base (mkId "tree" i) = nUriS base (mkId "edge_annotation" j)) ↔ False := by
  rw [nUriS_inj]
  simpa using mkId_tree_ne_eann i j

@[simp] theorem uri_at (base : String) (i j : Nat) :
    (nUriS base (mkId "edge_annotation" i) = nUriS base (mkId "tree" j)) ↔ False := by
  rw [nUriS_inj]
  simpa using (mkId_tree_ne_eann j i).symm

@[simp] theorem uri_ua (base : String) (i j : Nat) :
    (nUriS base (mkId "tu" i) = nUriS base (mkId "edge_annotation" j)) ↔ False := by
  rw [nUriS_inj]
  simpa using mkId_tu_ne_eann i j

@[simp] theorem uri_au (base : String) (i j : Nat) :
    (nUriS base (mkId "edge_annotation" i) = nUriS base (mkId "tu" j)) ↔ False := by
  rw [nUriS_inj]
  simpa using (mkId_tu_ne_eann j i).symm


/-! ### Statement lookups within one clade statement block -/

theorem chunk_hasParent_own (base : String) (b : NodeAnn) :
    objsOf (annStmts base b) (nUriS base (mkId "node" b.nid)) (qUriS "cdao:has_Parent")
      = (match b.pUri, b.eid with
        | some pu, some _ => [.uri (nUriS base pu)]
        | _, _ => []) := by
  obtain ⟨nid, trid, tid, eid, pUri, nm, bl, leaf⟩ := b
  rcases trid with _ | tk <;> rcases tid with _ | tuk <;> rcases pUri with _ | pu <;>
    rcases eid with _ | ek <;>
      simp +decide [annStmts, objsOf, List.filterMap_cons, List.filterMap_append]

theorem chunk_hasParent_other (base : String) (b : NodeAnn) (s : String)
    (hs : s ≠ nUriS base (mkId "node" b.nid)) :
    objsOf (annStmts base b) s (qUriS "cdao:has_Parent") = [] := by
  obtain ⟨nid, trid, tid, eid, pUri, nm, bl, leaf⟩ := b
  have hs2 : ¬ (nUriS base (mkId "node" nid) = s) := fun h => hs h.symm
  rcases trid with _ | tk <;> rcases tid with _ | tuk <;> rcases pUri with _ | pu <;>
    rcases eid with _ | ek <;>
      simp +decide [annStmts, objsOf, List.filterMap_cons, List.filterMap_append, hs2]

theorem chunk_belongsChild_own (base : String) (b : NodeAnn) :
    objsOf (annStmts base b) (nUriS base (mkId "node" b.nid))
        (qUriS "cdao:belongs_to_Edge_as_Child")
      = (match b.pUri, b.eid with
        | some _, some ek => [.uri (nUriS base (mkId "edge" ek))]
        | _, _ => []) := by
  obtain ⟨nid, trid, tid, eid, pUri, nm, bl, leaf⟩ := b
  rcases trid with _ | tk <;> rcases tid with _ | tuk <;> rcases pUri with _ | pu <;>
    rcases eid with _ | ek <;>
      simp +decide [annStmts, objsOf, List.filterMap_cons, List.filterMap_append]

theorem chunk_belongsChild_other (base : String) (b : NodeAnn) (s : String)
    (hs : s ≠ nUriS base (mkId "node" b.nid)) :
    objsOf (annStmts base b) s (qUriS "cdao:belongs_to_Edge_as_Child") = [] := by
  obtain ⟨nid, trid, tid, eid, pUri, nm, bl, leaf⟩ := b
  have hs2 : ¬ (nUriS base (mkId "node" nid) = s) := fun h => hs h.symm
  rcases trid with _ | tk <;> rcases tid with _ | tuk <;> rcases pUri with _ | pu <;>
    rcases eid with _ | ek <;>
      simp +decide [annStmts, objsOf, List.filterMap_cons, List.filterMap_append, hs2]

theorem chunk_represents_own (base : String) (b : NodeAnn) :
    objsOf (annStmts base b) (nUriS base (mkId "node" b.nid)) (qUriS "cdao:represents_TU")
      = (match b.tid with
        | some tk => [.uri (nUriS base (mkId "tu" tk))]
        | none => []) := by
  obtain ⟨nid, trid, tid, eid, pUri, nm, bl, leaf⟩ := b
  rcases trid with _ | tk <;> rcases tid with _ | tuk <;> rcases pUri with _ | pu <;>
    rcases eid with _ | ek <;>
      simp +decide [annStmts, objsOf, List.filterMap_cons, List.filterMap_append]

theorem chunk_represents_other (base : String) (b : NodeAnn) (s : String)
    (hs : s ≠ nUriS base (mkId "node" b.nid)) :
    objsOf (annStmts base b) s (qUriS "cdao:represents_TU") = [] := by
  obtain ⟨nid, trid, tid, eid, pUri, nm, bl, leaf⟩ := b
  have hs2 : ¬ (nUriS base (mkId "node" nid) = s) := fun h => hs h.symm
  rcases trid with _ | tk <;> rcases tid with _ | tuk <;> rcases pUri with _ | pu <;>
    rcases eid with _ | ek <;>
      simp +decide [annStmts, objsOf, List.filterMap_cons, List.filterMap_append, hs2]

theorem chunk_hasAnn_own (base : String) (b : NodeAnn) (pu : String) (ek : Nat)
    (hp : b.pUri = some pu) (he : b.eid = some ek) :
    objsOf (annStmts base b) (nUriS base (mkId "edge" ek)) (qUriS "cdao:has_annotation")
      = [.uri (nUriS base (mkId "edge_annotation" ek))] := by
  obtain ⟨nid, trid, tid, eid, pUri, nm, bl, leaf⟩ := b
  simp only at hp he
  subst hp
  subst he
  rcases trid with _ | tk <;> rcases tid with _ | tuk <;>
    simp +decide [annStmts, objsOf, List.filterMap_cons, List.filterMap_append]

theorem chunk_hasAnn_other (base : String) (b : NodeAnn) (s : String)
    (hs : ∀ k : Nat, b.eid = some k → s ≠ nUriS base (mkId "edge" k)) :
    objsOf (annStmts base b) s (qUriS "cdao:has_annotation") = [] := by
  obtain ⟨nid, trid, tid, eid, pUri, nm, bl, leaf⟩ := b
  rcases eid with _ | ek
  · rcases trid with _ | tk <;> rcases tid with _ | tuk <;> rcases pUri with _ | pu <;>
      simp +decide [annStmts, objsOf, List.filterMap_cons, List.filterMap_append]
  · have hs2 : ¬ (nUriS base (mkId "edge" ek) = s) := fun h => hs ek rfl h.symm
    rcases trid with _ | tk <;> rcases tid with _ | tuk <;> rcases pUri with _ | pu <;>
      simp +decide [annStmts, objsOf, List.filterMap_cons, List.filterMap_append, hs2]

theorem chunk_hasValue_own (base : String) (b : NodeAnn) (pu : String) (ek : Nat)
    (hp : b.pUri = some pu) (he : b.eid = some ek) :
    objsOf (annStmts base b) (nUriS base (mkId "edge_annotation" ek)) (qUriS "cdao:has_value")
      = [.lit (strOfBL b.bl)] := by
  obtain ⟨nid, trid, tid, eid, pUri, nm, bl, leaf⟩ := b
  simp only at hp he
  subst hp
  subst he
  rcases trid with _ | tk <;> rcases tid with _ | tuk <;>
    simp +decide [annStmts, objsOf, List.filterMap_cons, List.filterMap_append]

theorem chunk_hasValue_other (base : String) (b : NodeAnn) (s : String)
    (hs : ∀ k : Nat, b.eid = some k → s ≠ nUriS base (mkId "edge_annotation" k)) :
    objsOf (annStmts base b) s (qUriS "cdao:has_value") = [] := by
  obtain ⟨nid, trid, tid, eid, pUri, nm, bl, leaf⟩ := b
  rcases eid with _ | ek
  · rcases trid with _ | tk <;> rcases tid with _ | tuk <;> rcases pUri with _ | pu <;>
      simp +decide [annStmts, objsOf, List.filterMap_cons, List.filterMap_append]
  · have hs2 : ¬ (nUriS base (mkId "edge_annotation" ek) = s) := fun h => hs ek rfl h.symm
    rcases trid with _ | tk <;> rcases tid with _ | tuk <;> rcases pUri with _ | pu <;>
      simp +decide [annStmts, objsOf, List.filterMap_cons, List.filterMap_append, hs2]

theorem chunk_label_own (base : String) (b : NodeAnn) (tk : Nat)
    (ht : b.tid = some tk) :
    objsOf (annStmts base b) (nUriS base (mkId "tu" tk)) (qUriS "rdf:label")
      = [.lit (.str (b.name.getD ""))] := by
  obtain ⟨nid, trid, tid, eid, pUri, nm, bl, leaf⟩ := b
  simp only at ht
  subst ht
  rcases trid with _ | trk <;> rcases pUri with _ | pu <;> rcases eid with _ | ek <;>
    simp +decide [annStmts, objsOf, List.filterMap_cons, List.filterMap_append]

theorem chunk_label_other (base : String) (b : NodeAnn) (s : String)
    (hs : ∀ k : Nat, b.tid = some k → s ≠ nUriS base (mkId "tu" k)) :
    objsOf (annStmts base b) s (qUriS "rdf:label") = [] := by
  obtain ⟨nid, trid, tid, eid, pUri, nm, bl, leaf⟩ := b
  rcases tid with _ | tk
  · rcases trid with _ | trk <;> rcases pUri with _ | pu <;> rcases eid with _ | ek <;>
      simp +decide [annStmts, objsOf, List.filterMap_cons, List.filterMap_append]
  · have hs2 : ¬ (nUriS base (mkId "tu" tk) = s) := fun h => hs tk rfl h.symm
    rcases trid with _ | trk <;> rcases pUri with _ | pu <;> rcases eid with _ | ek <;>
      simp +decide [annStmts, objsOf, List.filterMap_cons, List.filterMap_append, hs2]

theorem chunk_hasRoot_own (base : String) (b : NodeAnn) (tk : Nat)
    (ht : b.trid = some tk) :
    objsOf (annStmts base b) (nUriS base (mkId "tree" tk)) (qUriS "cdao:has_root")
      = [.uri (nUriS base (mkId "node" b.nid))] := by
  obtain ⟨nid, trid, tid, eid, pUri, nm, bl, leaf⟩ := b
  simp only at ht
  subst ht
  rcases tid with _ | tuk <;> rcases pUri with _ | pu <;> rcases eid with _ | ek <;>
    simp +decide [annStmts, objsOf, List.filterMap_cons, List.filterMap_append]

theorem chunk_hasRoot_other (base : String) (b : NodeAnn) (s : String)
    (hs : ∀ k : Nat, b.trid = some k → s ≠ nUriS base (mkId "tree" k)) :
    objsOf (annStmts base b) s (qUriS "cdao:has_root") = [] := by
  obtain ⟨nid, trid, tid, eid, pUri, nm, bl, leaf⟩ := b
  rcases trid with _ | tk
  · rcases tid with _ | tuk <;> rcases pUri with _ | pu <;> rcases eid with _ | ek <;>
      simp +decide [annStmts, objsOf, List.filterMap_cons, List.filterMap_append]
  · have hs2 : ¬ (nUriS base (mkId "tree" tk) = s) := fun h => hs tk rfl h.symm
    rcases tid with _ | tuk <;> rcases pUri with _ | pu <;> rcases eid with _ | ek <;>
      simp +decide [annStmts, objsOf, List.filterMap_cons, List.filterMap_append, hs2]

theorem chunk_typeSubjects_anc (base : String) (b : NodeAnn) :
    typeSubjects (annStmts base b) (qUriS "cdao:AncestralNode")
      = if b.leaf then [] else [nUriS base (mkId "node" b.nid)] := by
  obtain ⟨nid, trid, tid, eid, pUri, nm, bl, leaf⟩ := b
  rcases trid with _ | tk <;> rcases tid with _ | tuk <;> rcases pUri with _ | pu <;>
    rcases eid with _ | ek <;> cases leaf <;>
      simp +decide [annStmts, typeSubjects, List.filterMap_cons, List.filterMap_append]

theorem chunk_typeSubjects_term (base : String) (b : NodeAnn) :
    typeSubjects (annStmts base b) (qUriS "cdao:TerminalNode")
      = if b.leaf then [nUriS base (mkId "node" b.nid)] else [] := by
  obtain ⟨nid, trid, tid, eid, pUri, nm, bl, leaf⟩ := b
  rcases trid with _ | tk <;> rcases tid with _ | tuk <;> rcases pUri with _ | pu <;>
    rcases eid with _ | ek <;> cases leaf <;>
      simp +decide [annStmts, typeSubjects, List.filterMap_cons, List.filterMap_append]

theorem chunk_typeSubjects_rooted (base : String) (b : NodeAnn) :
    typeSubjects (annStmts base b) (qUriS "cdao:RootedTree")
      = (match b.trid with
        | some tk => [nUriS base (mkId "tree" tk)]
        | none => []) := by
  obtain ⟨nid, trid, tid, eid, pUri, nm, bl, leaf⟩ := b
  rcases trid with _ | tk <;> rcases tid with _ | tuk <;> rcases pUri with _ | pu <;>
    rcases eid with _ | ek <;> cases leaf <;>
      simp +decide [annStmts, typeSubjects, List.filterMap_cons, List.filterMap_append]

theorem chunk_edgeLength_mem (base : String) (b : NodeAnn) (pu : String) (ek : Nat)
    (hp : b.pUri = some pu) (he : b.eid = some ek) :
    (⟨nUriS base (mkId "edge_annotation" ek), qUriS "rdf:type",
      .uri (qUriS "cdao:EdgeLength")⟩ : Stmt) ∈ annStmts base b := by
  obtain ⟨nid, trid, tid, eid, pUri, nm, bl, leaf⟩ := b
  simp only at hp he
  subst hp
  subst he
  rcases trid with _ | tk <;> rcases tid with _ | tuk <;>
    simp [annStmts]


/-! ### Query lookups against the whole emitted model -/

theorem objsOf_append (xs ys : List Stmt) (s p : String) :
    objsOf (xs ++ ys) s p = objsOf xs s p ++ objsOf ys s p := by
  simp [objsOf, List.filterMap_append]

theorem objsOf_flatMap (l : List NodeAnn) (g : NodeAnn → List Stmt) (s p : String) :
    objsOf (l.flatMap g) s p = l.flatMap fun b => objsOf (g b) s p := by
  induction l with
  | nil => rfl
  | cons a rest ih => simp only [List.flatMap_cons, objsOf_append, ih]

theorem typeSubjects_append (xs ys : List Stmt) (ty : String) :
    typeSubjects (xs ++ ys) ty = typeSubjects xs ty ++ typeSubjects ys ty := by
  simp [typeSubjects, List.filterMap_append]

theorem typeSubjects_flatMap (l : List NodeAnn) (g : NodeAnn → List Stmt) (ty : String) :
    typeSubjects (l.flatMap g) ty = l.flatMap fun b => typeSubjects (g b) ty := by
  induction l with
  | nil => rfl
  | cons a rest ih => simp only [List.flatMap_cons, typeSubjects_append, ih]

theorem modelOf_eq_process (base : String) (c : Clade) :
    (process_clade base c none true initW).1 = modelOf base c := by
  have h : process_clade base c ((none : Option Nat).map fun j => mkId "node" j) true initW
      = ((flattenA (annotateT c none true initW).1).flatMap (annStmts base),
         (annotateT c none true initW).2) := process_eq_annotate base c none true initW
  simpa [modelOf, annsOf] using congrArg Prod.fst h

theorem annsOf_nid_nodup (c : Clade) : ((annsOf c).map NodeAnn.nid).Nodup := by
  rw [annsOf, flattenA_nids]
  exact List.nodup_range' _ _

theorem annsOf_nodup (c : Clade) : (annsOf c).Nodup :=
  (annsOf_nid_nodup c).of_map

theorem annsOf_eid_nodup (c : Clade) : ((annsOf c).filterMap NodeAnn.eid).Nodup := by
  rw [annsOf, flattenA_eids]
  exact List.nodup_range' _ _

theorem annsOf_tid_nodup (c : Clade) : ((annsOf c).filterMap NodeAnn.tid).Nodup := by
  rw [annsOf, flattenA_tids]
  exact List.nodup_range' _ _

theorem annsOf_wf (c : Clade) : ∀ a ∈ annsOf c, WFAnn a :=
  flattenA_wf c none true initW

theorem global_hasParent (base : String) (c : Clade) {a : NodeAnn} (ha : a ∈ annsOf c) :
    objsOf (modelOf base c) (nUriS base (mkId "node" a.nid)) (qUriS "cdao:has_Parent")
      = (match a.pUri, a.eid with
        | some pu, some _ => [.uri (nUriS base pu)]
        | _, _ => []) := by
  rw [modelOf, objsOf_flatMap,
    flatMap_single (annsOf_nodup c) _ ha
      (fun b hb hbne => chunk_hasParent_other base b _ (by
        have hne := nodup_map_ne (annsOf_nid_nodup c) ha hb (Ne.symm hbne)
        simp only [ne_eq, uri_nn]
        exact hne))]
  exact chunk_hasParent_own base a


theorem global_belongsChild (base : String) (c : Clade) {a : NodeAnn} (ha : a ∈ annsOf c) :
    objsOf (modelOf base c) (nUriS base (mkId "node" a.nid))
        (qUriS "cdao:belongs_to_Edge_as_Child")
      = (match a.pUri, a.eid with
        | some _, some ek => [.uri (nUriS base (mkId "edge" ek))]
        | _, _ => []) := by
  rw [modelOf, objsOf_flatMap,
    flatMap_single (annsOf_nodup c) _ ha
      (fun b hb hbne => chunk_belongsChild_other base b _ (by
        have hne := nodup_map_ne (annsOf_nid_nodup c) ha hb (Ne.symm hbne)
        simp only [ne_eq, uri_nn]
        exact hne))]
  exact chunk_belongsChild_own base a

theorem global_represents (base : String) (c : Clade) {a : NodeAnn} (ha : a ∈ annsOf c) :
    objsOf (modelOf base c) (nUriS base (mkId "node" a.nid)) (qUriS "cdao:represents_TU")
      = (match a.tid with
        | some tk => [.uri (nUriS base (mkId "tu" tk))]
        | none => []) := by
  rw [modelOf, objsOf_flatMap,
    flatMap_single (annsOf_nodup c) _ ha
      (fun b hb hbne => chunk_represents_other base b _ (by
        have hne := nodup_map_ne (annsOf_nid_nodup c) ha hb (Ne.symm hbne)
        simp only [ne_eq, uri_nn]
        exact hne))]
  exact chunk_represents_own base a

theorem global_hasAnn (base : String) (c : Clade) {a : NodeAnn} (ha : a ∈ annsOf c)
    {pu : String} {ek : Nat} (hp : a.pUri = some pu) (he : a.eid = some ek) :
    objsOf (modelOf base c) (nUriS base (mkId "edge" ek)) (qUriS "cdao:has_annotation")
      = [.uri (nUriS base (mkId "edge_annotation" ek))] := by
  rw [modelOf, objsOf_flatMap,
    flatMap_single (annsOf_nodup c) _ ha
      (fun b hb hbne => chunk_hasAnn_other base b _ (by
        intro k hk
        simp only [ne_eq, uri_ee]
        intro hkek
        subst hkek
        exact nodup_filterMap_some (annsOf_eid_nodup c) hb ha hbne hk he))]
  exact chunk_hasAnn_own base a pu ek hp he

theorem global_hasValue (base : String) (c : Clade) {a : NodeAnn} (ha : a ∈ annsOf c)
    {pu : String} {ek : Nat} (hp : a.pUri = some pu) (he : a.eid = some ek) :
    objsOf (modelOf base c) (nUriS base (mkId "edge_annotation" ek)) (qUriS "cdao:has_value")
      = [.lit (strOfBL a.bl)] := by
  rw [modelOf, objsOf_flatMap,
    flatMap_single (annsOf_nodup c) _ ha
      (fun b hb hbne => chunk_hasValue_other base b _ (by
        intro k hk
        simp only [ne_eq, uri_aa]
        intro hkek
        subst hkek
        exact nodup_filterMap_some (annsOf_eid_nodup c) hb ha hbne hk he))]
  exact chunk_hasValue_own base a pu ek hp he

theorem global_label (base : String) (c : Clade) {a : NodeAnn} (ha : a ∈ annsOf c)
    {tk : Nat} (ht : a.tid = some tk) :
    objsOf (modelOf base c) (nUriS base (mkId "tu" tk)) (qUriS "rdf:label")
      = [.lit (.str (a.name.getD ""))] := by
  rw [modelOf, objsOf_flatMap,
    flatMap_single (annsOf_nodup c) _ ha
      (fun b hb hbne => chunk_label_other base b _ (by
        intro k hk
        simp only [ne_eq, uri_uu]
        intro hkek
        subst hkek
        exact nodup_filterMap_some (annsOf_tid_nodup c) hb ha hbne hk ht))]
  exact chunk_label_own base a tk ht

theorem bool_if_swap {α : Type} (cnd : Bool) (x : List α) :
    (if cnd then ([] : List α) else x) = if !cnd then x else [] := by
  cases cnd <;> rfl

theorem fm_congr {α β : Type} {l : List α} {f g : α → List β} (h : ∀ a ∈ l, f a = g a) :
    l.flatMap f = l.flatMap g := by
  induction l with
  | nil => rfl
  | cons a rest ih =>
    simp only [List.flatMap_cons]
    rw [h a (List.mem_cons_self a rest), ih fun b hb => h b (List.mem_cons_of_mem a hb)]

theorem global_unionNodes (base : String) (c : Clade) :
    unionNodes (modelOf base c)
      = (((annsOf c).filter fun a => !a.leaf).map fun a => nUriS base (mkId "node" a.nid))
        ++ (((annsOf c).filter fun a => a.leaf).map fun a => nUriS base (mkId "node" a.nid)) := by
  rw [unionNodes, modelOf, typeSubjects_flatMap, typeSubjects_flatMap]
  congr 1
  · rw [fm_congr (fun b _ => chunk_typeSubjects_anc base b),
      fm_congr (fun b _ => bool_if_swap b.leaf [nUriS base (mkId "node" b.nid)]),
      flatMap_if_singleton]
  · rw [fm_congr (fun b _ => chunk_typeSubjects_term base b),
      flatMap_if_singleton]

theorem global_rootedTrees (base : String) (c : Clade) :
    typeSubjects (modelOf base c) (qUriS "cdao:RootedTree")
      = [nUriS base (mkId "tree" 1)] := by
  rw [modelOf, typeSubjects_flatMap,
    fm_congr (fun b _ => chunk_typeSubjects_rooted base b)]
  have h1 : ((annsOf c).flatMap fun b =>
      (match b.trid with
        | some tk => [nUriS base (mkId "tree" tk)]
        | none => []))
      = ((annsOf c).filterMap NodeAnn.trid).map fun tk => nUriS base (mkId "tree" tk) := by
    induction annsOf c with
    | nil => rfl
    | cons a rest ih =>
      simp only [List.flatMap_cons, List.filterMap_cons]
      cases a.trid <;> simp [ih]
  rw [h1, annsOf, flattenA_trids]
  rfl

theorem global_typed_edgeLength (base : String) (c : Clade) {a : NodeAnn}
    (ha : a ∈ annsOf c) {pu : String} {ek : Nat}
    (hp : a.pUri = some pu) (he : a.eid = some ek) :
    typed (modelOf base c) (nUriS base (mkId "edge_annotation" ek))
      (qUriS "cdao:EdgeLength") = true := by
  have hmem : (⟨nUriS base (mkId "edge_annotation" ek), qUriS "rdf:type",
      .uri (qUriS "cdao:EdgeLength")⟩ : Stmt) ∈ modelOf base c := by
    rw [modelOf]
    exact List.mem_flatMap.mpr ⟨a, ha, chunk_edgeLength_mem base a pu ek hp he⟩
  rw [typed, List.contains_eq_any_beq]
  exact List.any_eq_true.mpr ⟨_, hmem, by simp⟩


/-! ### Adjacency: which annotations point at a given parent node id -/

mutual
theorem subtreesA_map_ann (x : ACl) : (subtreesA x).map aAnn = flattenA x := by
  match x with
  | .node a ks =>
    simp only [subtreesA, flattenA, List.map_cons, aAnn]
    rw [subtreesF_map_ann ks]

theorem subtreesF_map_ann (ks : List ACl) : (subtreesF ks).map aAnn = flattenF ks := by
  match ks with
  | [] => rfl
  | k :: rest =>
    simp only [subtreesF, flattenF, List.map_append]
    rw [subtreesA_map_ann k, subtreesF_map_ann rest]
end

mutual
theorem kidHeads_lo (c : Clade) (pj : Option Nat) (root : Bool) (w : WCounters) (K : Nat)
    (hK : K ≤ w.node_counter) :
    kidHeads (annotateT c pj root w).1 K = [] := by
  match c with
  | .mk nm bl cs =>
    cases hcs : cs.isEmpty with
    | true =>
      have hnil : cs = [] := by
        cases cs with
        | nil => rfl
        | cons a l => simp [List.isEmpty] at hcs
      subst hnil
      simp [annotateT, kidHeads, kidHeadsF]
    | false =>
      simp only [annotateT, hcs, Bool.false_eq_true, if_false, kidHeads]
      have hnid : (mintAnn (.mk nm bl cs) (pj.map fun j => mkId "node" j) root w).1.nid
          = w.node_counter + 1 := by rw [mintAnn_fst]
      have hw2 : K ≤ (mintAnn (.mk nm bl cs) (pj.map fun j => mkId "node" j) root w).2.node_counter := by
        rw [mintAnn_snd]
        simp
        omega
      rw [hnid, if_neg (by omega),
        kidHeadsF_lo cs (w.node_counter + 1)
          ((mintAnn (.mk nm bl cs) (pj.map fun j => mkId "node" j) root w).2) K hw2]
      rfl

theorem kidHeadsF_lo (cs : List Clade) (pj2 : Nat) (w : WCounters) (K : Nat)
    (hK : K ≤ w.node_counter) :
    kidHeadsF (annotateKidsT cs pj2 w).1 K = [] := by
  match cs with
  | [] => simp [annotateKidsT, kidHeadsF]
  | c :: rest =>
    simp only [annotateKidsT, kidHeadsF]
    rw [kidHeads_lo c (some pj2) false w K hK,
      kidHeadsF_lo rest pj2 (annotateT c (some pj2) false w).2 K (by
        rw [annotateT_counters]
        simp
        omega)]
    rfl
end

mutual
theorem kidHeads_hi (c : Clade) (pj : Option Nat) (root : Bool) (w : WCounters) (K : Nat)
    (hK : (annotateT c pj root w).2.node_counter < K) :
    kidHeads (annotateT c pj root w).1 K = [] := by
  match c with
  | .mk nm bl cs =>
    rw [annotateT_counters] at hK
    simp only at hK
    cases hcs : cs.isEmpty with
    | true =>
      have hnil : cs = [] := by
        cases cs with
        | nil => rfl
        | cons a l => simp [List.isEmpty] at hcs
      subst hnil
      simp [annotateT, kidHeads, kidHeadsF]
    | false =>
      simp only [annotateT, hcs, Bool.false_eq_true, if_false, kidHeads]
      have hsz : 1 ≤ csize (.mk nm bl cs) := by simp [csize]
      have hnid : (mintAnn (.mk nm bl cs) (pj.map fun j => mkId "node" j) root w).1.nid
          = w.node_counter + 1 := by rw [mintAnn_fst]
      have hw2 : (annotateKidsT cs
          ((mintAnn (.mk nm bl cs) (pj.map fun j => mkId "node" j) root w).1.nid)
          ((mintAnn (.mk nm bl cs) (pj.map fun j => mkId "node" j) root w).2)).2.node_counter < K := by
        rw [annotateKidsT_counters, mintAnn_snd]
        simp only [csize] at hK ⊢
        omega
      rw [hnid] at hw2 ⊢
      rw [if_neg (by omega),
        kidHeadsF_hi cs (w.node_counter + 1)
          ((mintAnn (.mk nm bl cs) (pj.map fun j => mkId "node" j) root w).2) K hw2]
      rfl

theorem kidHeadsF_hi (cs : List Clade) (pj2 : Nat) (w : WCounters) (K : Nat)
    (hK : (annotateKidsT cs pj2 w).2.node_counter < K) :
    kidHeadsF (annotateKidsT cs pj2 w).1 K = [] := by
  match cs with
  | [] => simp [annotateKidsT, kidHeadsF]
  | c :: rest =>
    rw [annotateKidsT_counters] at hK
    simp only at hK
    simp only [annotateKidsT, kidHeadsF]
    have hsz : 1 ≤ csize c := by
      match c with
      | .mk nm bl cs2 => simp [csize]
    have h1 : (annotateT c (some pj2) false w).2.node_counter < K := by
      rw [annotateT_counters]
      simp only [fsize] at hK ⊢
      omega
    rw [kidHeads_hi c (some pj2) false w K h1,
      kidHeadsF_hi rest pj2 (annotateT c (some pj2) false w).2 K (by
        rw [annotateKidsT_counters, annotateT_counters]
        simp only [fsize] at hK ⊢
        omega)]
    rfl
end


theorem mkId_node_eq_iff (i j : Nat) : mkId "node" i = mkId "node" j ↔ i = j :=
  ⟨mkId_inj, fun h => by rw [h]⟩

mutual
theorem adjA (c : Clade) (pj : Option Nat) (root : Bool) (w : WCounters) (K : Nat)
    (hpj : ∀ j, pj = some j → j ≤ w.node_counter) :
    (flattenA (annotateT c pj root w).1).filter
        (fun a => decide (a.pUri = some (mkId "node" K)))
      = (if pj = some K then [aAnn (annotateT c pj root w).1] else [])
        ++ kidHeads (annotateT c pj root w).1 K := by
  match c with
  | .mk nm bl cs =>
    have hann := annotateT_ann (.mk nm bl cs) pj root w
    have hkids := annotateT_kids (.mk nm bl cs) pj root w
    have hsplit : (annotateT (.mk nm bl cs) pj root w).1
        = .node (aAnn (annotateT (.mk nm bl cs) pj root w).1)
            (aKids (annotateT (.mk nm bl cs) pj root w).1) := by
      cases h : (annotateT (.mk nm bl cs) pj root w).1 with
      | node a ks => simp [aAnn, aKids]
    rw [hsplit, flattenA, kidHeads, List.filter_cons]
    rw [hann, hkids, mintAnn_fst]
    simp only [Clade.clades, Clade.name, Clade.branch_length]
    have hf := adjF cs (w.node_counter + 1)
      ((mintAnn (.mk nm bl cs) (pj.map fun j => mkId "node" j) root w).2) K
      (by rw [mintAnn_snd])
    rw [hf]
    cases pj with
    | none => simp
    | some j =>
      by_cases hjk : j = K
      · subst hjk
        simp [aAnn, mkId_node_eq_iff]
      · simp [aAnn, mkId_node_eq_iff, hjk]

theorem adjF (cs : List Clade) (pj2 : Nat) (w : WCounters) (K : Nat)
    (hpj : pj2 ≤ w.node_counter) :
    (flattenF (annotateKidsT cs pj2 w).1).filter
        (fun a => decide (a.pUri = some (mkId "node" K)))
      = (if pj2 = K then (annotateKidsT cs pj2 w).1.map aAnn else [])
        ++ kidHeadsF (annotateKidsT cs pj2 w).1 K := by
  match cs with
  | [] =>
    simp [annotateKidsT, flattenF, kidHeadsF]
  | c :: rest =>
    simp only [annotateKidsT, flattenF, kidHeadsF, List.filter_append, List.map_cons]
    have h1 := adjA c (some pj2) false w K (by
      intro j hj
      cases hj
      exact hpj)
    have h2 := adjF rest pj2 (annotateT c (some pj2) false w).2 K (by
      rw [annotateT_counters]
      simp
      omega)
    rw [h1, h2]
    by_cases hk : pj2 = K
    · subst hk
      rw [if_pos rfl, if_pos rfl, if_pos rfl]
      have hlo : kidHeads (annotateT c (some pj2) false w).1 pj2 = [] :=
        kidHeads_lo c (some pj2) false w pj2 hpj
      rw [hlo]
      simp
    · rw [if_neg (by
        intro hcon
        exact hk (Option.some.injEq pj2 K ▸ hcon ▸ rfl)), if_neg hk, if_neg hk]
      simp
end


theorem subtree_nid_bounds (c : Clade) (pj : Option Nat) (root : Bool) (w : WCounters)
    {x : ACl} (hx : x ∈ subtreesA (annotateT c pj root w).1) :
    w.node_counter < (aAnn x).nid ∧ (aAnn x).nid ≤ w.node_counter + csize c := by
  have h1 : aAnn x ∈ flattenA (annotateT c pj root w).1 := by
    rw [← subtreesA_map_ann]
    exact List.mem_map_of_mem aAnn hx
  have h2 : (aAnn x).nid ∈ (flattenA (annotateT c pj root w).1).map NodeAnn.nid :=
    List.mem_map_of_mem NodeAnn.nid h1
  rw [flattenA_nids] at h2
  have := List.mem_range'_1.mp h2
  omega

theorem subtreeF_nid_bounds (cs : List Clade) (pj2 : Nat) (w : WCounters)
    {x : ACl} (hx : x ∈ subtreesF (annotateKidsT cs pj2 w).1) :
    w.node_counter < (aAnn x).nid ∧ (aAnn x).nid ≤ w.node_counter + fsize cs := by
  have h1 : aAnn x ∈ flattenF (annotateKidsT cs pj2 w).1 := by
    rw [← subtreesF_map_ann]
    exact List.mem_map_of_mem aAnn hx
  have h2 : (aAnn x).nid ∈ (flattenF (annotateKidsT cs pj2 w).1).map NodeAnn.nid :=
    List.mem_map_of_mem NodeAnn.nid h1
  rw [flattenF_nids] at h2
  have := List.mem_range'_1.mp h2
  omega

mutual
theorem kidHeads_subtree (c : Clade) (pj : Option Nat) (root : Bool) (w : WCounters)
    (x : ACl) (hx : x ∈ subtreesA (annotateT c pj root w).1) :
    kidHeads (annotateT c pj root w).1 (aAnn x).nid = (aKids x).map aAnn := by
  match c with
  | .mk nm bl cs =>
    have hsplit : (annotateT (.mk nm bl cs) pj root w).1
        = .node (aAnn (annotateT (.mk nm bl cs) pj root w).1)
            (aKids (annotateT (.mk nm bl cs) pj root w).1) := by
      cases h : (annotateT (.mk nm bl cs) pj root w).1 with
      | node a ks => simp [aAnn, aKids]
    rw [hsplit] at hx
    rw [hsplit, kidHeads]
    rw [subtreesA] at hx
    rcases List.mem_cons.mp hx with rfl | hx2
    · rw [← hsplit]
      rw [hsplit, aAnn, aKids]
      rw [if_pos rfl]
      have hlo : kidHeadsF (aKids (annotateT (.mk nm bl cs) pj root w).1)
          (aAnn (annotateT (.mk nm bl cs) pj root w).1).nid = [] := by
        rw [annotateT_kids, annotateT_ann, mintAnn_fst]
        simp only [Clade.clades]
        apply kidHeadsF_lo
        rw [mintAnn_snd]
      rw [hlo]
      simp
    · rw [annotateT_kids] at hx2
      simp only [Clade.clades, mintAnn_fst] at hx2
      have hbd := subtreeF_nid_bounds cs (w.node_counter + 1)
        ((mintAnn (.mk nm bl cs) (pj.map fun j => mkId "node" j) root w).2) hx2
      rw [mintAnn_snd] at hbd
      simp only at hbd
      rw [annotateT_ann, annotateT_kids]
      simp only [Clade.clades, mintAnn_fst]
      rw [if_neg (by omega)]
      rw [kidHeadsF_subtree cs (w.node_counter + 1)
        ((mintAnn (.mk nm bl cs) (pj.map fun j => mkId "node" j) root w).2) x hx2]
      simp

theorem kidHeadsF_subtree (cs : List Clade) (pj2 : Nat) (w : WCounters)
    (x : ACl) (hx : x ∈ subtreesF (annotateKidsT cs pj2 w).1) :
    kidHeadsF (annotateKidsT cs pj2 w).1 (aAnn x).nid = (aKids x).map aAnn := by
  match cs with
  | [] => simp [annotateKidsT, subtreesF] at hx
  | c :: rest =>
    simp only [annotateKidsT, subtreesF, List.mem_append] at hx
    simp only [annotateKidsT, kidHeadsF]
    rcases hx with hx | hx
    · have hbd := subtree_nid_bounds c (some pj2) false w hx
      rw [kidHeads_subtree c (some pj2) false w x hx]
      have hlo : kidHeadsF (annotateKidsT rest pj2 (annotateT c (some pj2) false w).2).1
          (aAnn x).nid = [] := by
        apply kidHeadsF_lo
        rw [annotateT_counters]
        simp only
        omega
      rw [hlo]
      simp
    · have hbd := subtreeF_nid_bounds rest pj2 (annotateT c (some pj2) false w).2 hx
      rw [annotateT_counters] at hbd
      simp only at hbd
      have hhi : kidHeads (annotateT c (some pj2) false w).1 (aAnn x).nid = [] := by
        apply kidHeads_hi
        rw [annotateT_counters]
        simp only
        omega
      rw [hhi, kidHeadsF_subtree rest pj2 (annotateT c (some pj2) false w).2 x hx]
      simp
end


/-! ### The rows of the node query over the whole model -/

theorem global_parentBL (base : String) (c : Clade) {a : NodeAnn} (ha : a ∈ annsOf c)
    (hwf : WFAnn a) :
    parentBLCombos (modelOf base c) (nUriS base (mkId "node" a.nid))
      = (match a.pUri with
        | some pu => [(.uri (nUriS base pu), .lit (strOfBL a.bl))]
        | none => []) := by
  obtain ⟨hwf1, hwf2, hwf3⟩ := hwf
  rw [parentBLCombos, global_hasParent base c ha]
  rcases hp : a.pUri with _ | pu
  · rcases he : a.eid with _ | ek
    · simp
    · rw [hp, he] at hwf2
      simp at hwf2
  · rcases he : a.eid with _ | ek
    · rw [hp, he] at hwf2
      simp at hwf2
    · simp only [List.flatMap_cons, List.flatMap_nil, List.append_nil]
      rw [global_belongsChild base c ha, hp, he]
      simp only [List.flatMap_cons, List.flatMap_nil, List.append_nil, uriOf]
      rw [global_hasAnn base c ha hp he]
      simp only [List.flatMap_cons, List.flatMap_nil, List.append_nil, uriOf]
      rw [global_typed_edgeLength base c ha hp he]
      simp only [if_pos]
      rw [global_hasValue base c ha hp he]
      rfl

theorem global_labelCombos (base : String) (c : Clade) {a : NodeAnn} (ha : a ∈ annsOf c) :
    labelCombos (modelOf base c) (nUriS base (mkId "node" a.nid))
      = (match a.tid with
        | some _ => [.lit (.str (a.name.getD ""))]
        | none => []) := by
  rw [labelCombos, global_represents base c ha]
  rcases ht : a.tid with _ | tk
  · simp
  · simp only [List.flatMap_cons, List.flatMap_nil, List.append_nil, uriOf]
    rw [global_label base c ha ht]

theorem global_rowFor (base : String) (c : Clade) {a : NodeAnn} (ha : a ∈ annsOf c) :
    ((leftJoin (parentBLCombos (modelOf base c) (nUriS base (mkId "node" a.nid)))).flatMap
      fun pb =>
        (leftJoin (labelCombos (modelOf base c) (nUriS base (mkId "node" a.nid)))).map
          fun lb => (⟨nUriS base (mkId "node" a.nid), pb, lb⟩ : Row1))
      = [rowOfAnn base a] := by
  have hwf := annsOf_wf c a ha
  rw [global_parentBL base c ha hwf, global_labelCombos base c ha]
  have htid : a.tid.isSome = truthy a.name := hwf.1
  rcases hp : a.pUri with _ | pu <;> rcases ht : a.tid with _ | tk <;>
    rw [ht] at htid <;> simp only [Option.isSome_some, Option.isSome_none] at htid <;>
      simp [leftJoin, rowOfAnn, nodeU, hp, ← htid]

theorem fm_map {α β γ : Type} (l : List α) (f : α → β) (g : β → List γ) :
    (l.map f).flatMap g = l.flatMap fun a => g (f a) := by
  induction l with
  | nil => rfl
  | cons a rest ih => simp [List.flatMap_cons, ih]

theorem fm_singleton {α β : Type} (l : List α) (h : α → β) :
    (l.flatMap fun a => [h a]) = l.map h := by
  induction l with
  | nil => rfl
  | cons a rest ih => simp [List.flatMap_cons, ih]

theorem global_rows (base : String) (c : Clade) :
    query1Rows (modelOf base c)
      = ((((annsOf c).filter fun a => !a.leaf) ++ ((annsOf c).filter fun a => a.leaf)).map
          (rowOfAnn base)) := by
  rw [query1Rows, global_unionNodes, ← List.map_append, fm_map]
  rw [fm_congr (fun a haa => global_rowFor base c (by
    rcases List.mem_append.mp haa with h | h
    · exact (List.mem_filter.mp h).1
    · exact (List.mem_filter.mp h).1))]
  exact fm_singleton _ _


/-! ### Folding the query rows into node_info and parents -/

theorem applyRow_ok (acc : (List (String × NodeRec)) × (List (String × List String)))
    (r : Row1) (h : rowOK r = true) :
    applyRow acc r
      = .ok ((r.node, rowRec r) :: acc.1,
          (match r.parentBL with
           | some pb => appendChild acc.2 (strOfNode pb.1) r.node
           | none => acc.2)) := by
  rcases hpb : r.parentBL with _ | pb
  · rcases hlb : r.label with _ | ln <;>
      simp [applyRow, hpb, hlb, rowRec, pure, Except.pure, bind, Except.bind]
  · rw [rowOK, hpb] at h
    rcases pb with ⟨p1, p2⟩
    rcases p2 with ps | pv
    · simp at h
    · rcases pv with ps | pq | pn
      · simp at h
      · rcases hlb : r.label with _ | ln <;>
          simp [applyRow, hpb, hlb, rowRec, pyFloat, pure, Except.pure, bind, Except.bind]
      · simp at h

theorem foldlM_applyRow (rows : List Row1) :
    ∀ acc, (∀ r ∈ rows, rowOK r = true) →
      rows.foldlM applyRow acc
        = Except.ok ((rows.map fun r => (r.node, rowRec r)).reverse ++ acc.1,
            parOf acc.2 rows) := by
  induction rows with
  | nil => intro acc h; simp [parOf, pure, Except.pure]
  | cons r rest ih =>
    intro acc h
    rw [List.foldlM_cons, applyRow_ok acc r (h r (List.mem_cons_self r rest))]
    rw [show ∀ (x : (List (String × NodeRec)) × (List (String × List String)))
        (f : (List (String × NodeRec)) × (List (String × List String))
          → Except PyErr ((List (String × NodeRec)) × (List (String × List String)))),
        (Except.ok x >>= f) = f x from fun x f => rfl]
    rw [ih _ (fun r2 hr2 => h r2 (List.mem_cons_of_mem r hr2))]
    simp only [List.map_cons, List.reverse_cons, List.append_assoc, List.singleton_append,
      parOf, List.foldl_cons]

theorem get_node_info_model (base : String) (c : Clade)
    (hgood : ∀ a ∈ annsOf c, goodAnn a) :
    get_node_info (modelOf base c)
      = .ok (niOf (query1Rows (modelOf base c)),
          parOf [] (query1Rows (modelOf base c))) := by
  rw [get_node_info, foldlM_applyRow _ ([], []) (by
    intro r hr
    rw [global_rows] at hr
    obtain ⟨a, haa, rfl⟩ := List.mem_map.mp hr
    have hga : goodAnn a := hgood a (by
      rcases List.mem_append.mp haa with h | h
      · exact (List.mem_filter.mp h).1
      · exact (List.mem_filter.mp h).1)
    rcases hp : a.pUri with _ | pu
    · simp [rowOK, rowOfAnn, hp]
    · have hbl : a.bl.isSome = true := hga.1 (by rw [hp]; rfl)
      rcases hb : a.bl with _ | q
      · rw [hb] at hbl; simp at hbl
      · simp [rowOK, rowOfAnn, hp, hb, strOfBL])]
  rw [niOf]
  simp

theorem rowRec_rowOfAnn (base : String) (a : NodeAnn) :
    rowRec (rowOfAnn base a) = recOf a := by
  rcases hp : a.pUri with _ | pu <;> rcases hb : a.bl with _ | q <;>
    cases htr : truthy a.name <;>
      simp [rowRec, rowOfAnn, recOf, hp, hb, htr, strOfBL, litString]

theorem nodeU_injective (base : String) : Function.Injective fun k : Nat => nodeU base k := by
  intro i j h
  simp only [nodeU] at h
  exact (uri_nn base i j).mp h

theorem parts_perm (c : Clade) :
    (((annsOf c).filter fun a => !a.leaf) ++ ((annsOf c).filter fun a => a.leaf)).Perm
      (annsOf c) := by
  have h := List.filter_append_perm (fun a : NodeAnn => !a.leaf) (annsOf c)
  have h2 : ((annsOf c).filter fun a => !!a.leaf) = (annsOf c).filter fun a => a.leaf := by
    apply List.filter_congr
    intro a _
    simp
  rw [h2] at h
  exact h

theorem parts_nid_nodup (c : Clade) :
    (((((annsOf c).filter fun a => !a.leaf) ++ ((annsOf c).filter fun a => a.leaf)).map
      NodeAnn.nid)).Nodup := by
  have hperm := (parts_perm c).map NodeAnn.nid
  exact hperm.nodup_iff.mpr (annsOf_nid_nodup c)

theorem global_lookup_ni (base : String) (c : Clade) {a : NodeAnn} (ha : a ∈ annsOf c) :
    lookupA (niOf (query1Rows (modelOf base c))) (nUriS base (mkId "node" a.nid))
      = some (recOf a) := by
  rw [global_rows, niOf]
  apply lookup_of_mem_nodup
  · rw [List.map_reverse]
    apply List.nodup_reverse.mpr
    rw [List.map_map, List.map_map]
    have hfun : ((Prod.fst ∘ fun r : Row1 => (r.node, rowRec r)) ∘ rowOfAnn base)
        = ((fun k => nodeU base k) ∘ NodeAnn.nid) := by
      funext a2
      simp [rowOfAnn, nodeU]
    rw [hfun, ← List.map_map]
    exact (parts_nid_nodup c).map (nodeU_injective base)
  · rw [List.mem_reverse, List.map_map]
    have hmem : a ∈ (((annsOf c).filter fun a => !a.leaf)
        ++ ((annsOf c).filter fun a => a.leaf)) := (parts_perm c).mem_iff.mpr ha
    refine List.mem_map.mpr ⟨a, hmem, ?_⟩
    simp only [Function.comp_apply, rowRec_rowOfAnn]
    simp [rowOfAnn, nodeU]


theorem childrenOf_appendChild (par : List (String × List String)) (p c k : String) :
    childrenOf (appendChild par p c) k
      = if k = p then childrenOf par k ++ [c] else childrenOf par k := by
  by_cases hk : k = p
  · subst hk
    simp [childrenOf, appendChild, lookupA, List.lookup]
  · have hbeq : (k == p) = false := by simpa using hk
    simp [childrenOf, appendChild, lookupA, List.lookup, hbeq, hk]

theorem childrenOf_parOf (rows : List Row1) :
    ∀ (par0 : List (String × List String)) (k : String),
      childrenOf (parOf par0 rows) k
        = childrenOf par0 k ++ rows.filterMap fun r =>
            match r.parentBL with
            | some pb => if strOfNode pb.1 = k then some r.node else none
            | none => none := by
  induction rows with
  | nil => intro par0 k; simp [parOf]
  | cons r rest ih =>
    intro par0 k
    rw [parOf, List.foldl_cons, show List.foldl _ _ rest = parOf (match r.parentBL with
      | some pb => appendChild par0 (strOfNode pb.1) r.node
      | none => par0) rest from rfl, ih]
    rcases hpb : r.parentBL with _ | pb
    · simp [List.filterMap_cons, hpb]
    · rw [List.filterMap_cons]
      simp only [hpb]
      rw [childrenOf_appendChild]
      by_cases hk : strOfNode pb.1 = k
      · rw [if_pos hk.symm, if_pos hk]
        simp
      · rw [if_neg (fun h => hk h.symm), if_neg hk]

theorem filterMap_if {α β : Type} (p : α → Bool) (f : α → β) (l : List α) :
    (l.filterMap fun a => if p a then some (f a) else none) = (l.filter p).map f := by
  induction l with
  | nil => rfl
  | cons a rest ih =>
    cases hp : p a <;> simp [List.filterMap_cons, List.filter_cons, hp, ih]

theorem filterMap_congr2 {α β : Type} {l : List α} {f g : α → Option β}
    (h : ∀ a ∈ l, f a = g a) : l.filterMap f = l.filterMap g := by
  induction l with
  | nil => rfl
  | cons a rest ih =>
    rw [List.filterMap_cons, List.filterMap_cons, h a (List.mem_cons_self a rest),
      ih fun b hb => h b (List.mem_cons_of_mem a hb)]

theorem rows_filterMap_children (base : String) (c : Clade) (K : Nat)
    (part : List NodeAnn) (hpart : ∀ a ∈ part, a ∈ annsOf c) :
    ((part.map (rowOfAnn base)).filterMap fun r =>
        match r.parentBL with
        | some pb => if strOfNode pb.1 = nUriS base (mkId "node" K) then some r.node else none
        | none => none)
      = ((part.filter fun a => decide (a.pUri = some (mkId "node" K))).map
          fun a => nUriS base (mkId "node" a.nid)) := by
  rw [List.filterMap_map]
  rw [filterMap_congr2 (g := fun a : NodeAnn =>
    if decide (a.pUri = some (mkId "node" K)) then some (nUriS base (mkId "node" a.nid))
    else none) ?heq]
  · exact filterMap_if _ _ part
  case heq =>
    intro a haa
    have hwf := annsOf_wf c a (hpart a haa)
    simp only [Function.comp_apply, rowOfAnn]
    rcases hp : a.pUri with _ | pu
    · simp [hp]
    · rcases hwf.2.2 with hn | ⟨j, hj⟩
      · rw [hp] at hn; exact absurd hn (by simp)
      · rw [hp] at hj
        obtain rfl : pu = mkId "node" j := by injection hj
        simp only [strOfNode, hp]
        by_cases hjk : j = K
        · subst hjk
          simp [nUriS_inj, nodeU]
        · have h1 : ¬ (nUriS base (mkId "node" j) = nUriS base (mkId "node" K)) := by
            rw [nUriS_inj]
            intro hcon
            exact hjk (mkId_inj hcon)
          have h2 : ¬ ((some (mkId "node" j) : Option String) = some (mkId "node" K)) := by
            intro hcon
            exact hjk (mkId_inj (by injection hcon))
          simp [h1, h2]

theorem global_children (base : String) (c : Clade) (K : Nat) :
    childrenOf (parOf [] (query1Rows (modelOf base c))) (nUriS base (mkId "node" K))
      = ((((annsOf c).filter fun a => decide (a.pUri = some (mkId "node" K))).filter
            fun a => !a.leaf).map fun a => nUriS base (mkId "node" a.nid))
        ++ ((((annsOf c).filter fun a => decide (a.pUri = some (mkId "node" K))).filter
            fun a => a.leaf).map fun a => nUriS base (mkId "node" a.nid)) := by
  rw [childrenOf_parOf, global_rows]
  rw [show childrenOf [] (nUriS base (mkId "node" K)) = [] from rfl]
  rw [List.nil_append, List.map_append, List.filterMap_append]
  rw [rows_filterMap_children base c K _ (fun a haa => (List.mem_filter.mp haa).1),
    rows_filterMap_children base c K _ (fun a haa => (List.mem_filter.mp haa).1)]
  rw [List.filter_comm, List.filter_comm ((fun a : NodeAnn => a.leaf))]


/-! ### Reconstruction of the tree from the derived dictionaries -/

theorem mem_subtreesA_self (x : ACl) : x ∈ subtreesA x := by
  match x with
  | .node a ks => exact List.mem_cons_self _ _

theorem mem_subtreesF_of_mem {ks : List ACl} {k : ACl} (hk : k ∈ ks) :
    k ∈ subtreesF ks := by
  induction ks with
  | nil => simp at hk
  | cons k1 rest ih =>
    rw [subtreesF]
    rcases List.mem_cons.mp hk with rfl | hk2
    · exact List.mem_append.mpr (Or.inl (mem_subtreesA_self k))
    · exact List.mem_append.mpr (Or.inr (ih hk2))

mutual
theorem subtreesA_trans (T : ACl) :
    ∀ x ∈ subtreesA T, ∀ y ∈ subtreesA x, y ∈ subtreesA T := by
  match T with
  | .node a ks =>
    intro x hx y hy
    rw [subtreesA] at hx ⊢
    rcases List.mem_cons.mp hx with rfl | hx2
    · exact hy
    · exact List.mem_cons_of_mem _ (subtreesF_trans ks x hx2 y hy)

theorem subtreesF_trans (ks : List ACl) :
    ∀ x ∈ subtreesF ks, ∀ y ∈ subtreesA x, y ∈ subtreesF ks := by
  match ks with
  | [] => intro x hx; rw [subtreesF] at hx; simp at hx
  | k :: rest =>
    intro x hx y hy
    rw [subtreesF] at hx ⊢
    rcases List.mem_append.mp hx with hx2 | hx2
    · exact List.mem_append.mpr (Or.inl (subtreesA_trans k x hx2 y hy))
    · exact List.mem_append.mpr (Or.inr (subtreesF_trans rest x hx2 y hy))
end

theorem mem_subtrees_kid {T x k : ACl} (hx : x ∈ subtreesA T) (hk : k ∈ aKids x) :
    k ∈ subtreesA T := by
  apply subtreesA_trans T x hx
  match x with
  | .node a ks =>
    rw [subtreesA]
    exact List.mem_cons_of_mem _ (mem_subtreesF_of_mem hk)

theorem csizeA_pos (x : ACl) : 1 ≤ csizeA x := by
  match x with
  | .node a ks => simp [csizeA]

theorem csizeF_mem_le {ks : List ACl} {k : ACl} (hk : k ∈ ks) : csizeA k ≤ csizeF ks := by
  induction ks with
  | nil => simp at hk
  | cons k1 rest ih =>
    rw [csizeF]
    rcases List.mem_cons.mp hk with rfl | hk2
    · omega
    · have := ih hk2
      omega

theorem csizeA_kid_lt {x k : ACl} (hk : k ∈ aKids x) : csizeA k < csizeA x := by
  match x with
  | .node a ks =>
    rw [csizeA]
    have : csizeA k ≤ csizeF ks := csizeF_mem_le hk
    omega

theorem rebuildInn_eq_filter (ks : List ACl) :
    rebuildInn ks = ((ks.filter fun k => !(aAnn k).leaf).map rebuildA) := by
  induction ks with
  | nil => rfl
  | cons k rest ih =>
    rw [rebuildInn, List.filter_cons]
    cases hl : (aAnn k).leaf <;> simp [hl, ih]

theorem rebuildTer_eq_filter (ks : List ACl) :
    rebuildTer ks = ((ks.filter fun k => (aAnn k).leaf).map rebuildA) := by
  induction ks with
  | nil => rfl
  | cons k rest ih =>
    rw [rebuildTer, List.filter_cons]
    cases hl : (aAnn k).leaf <;> simp [hl, ih]

theorem global_children_subtree (base : String) (t : Clade) {x : ACl}
    (hx : x ∈ subtreesA (annotateT t none true initW).1) :
    childrenOf (parOf [] (query1Rows (modelOf base t)))
        (nUriS base (mkId "node" (aAnn x).nid))
      = (((aKids x).filter fun k => !(aAnn k).leaf).map
          fun k => nUriS base (mkId "node" (aAnn k).nid))
        ++ (((aKids x).filter fun k => (aAnn k).leaf).map
          fun k => nUriS base (mkId "node" (aAnn k).nid)) := by
  rw [global_children]
  have hadj : ((annsOf t).filter fun a => decide (a.pUri = some (mkId "node" (aAnn x).nid)))
      = (aKids x).map aAnn := by
    rw [annsOf, adjA t none true initW (aAnn x).nid (by intro j hj; cases hj)]
    rw [if_neg (by simp)]
    rw [kidHeads_subtree t none true initW x hx]
    rfl
  rw [hadj, List.filter_map, List.filter_map, List.map_map, List.map_map]
  rfl

theorem parseKidsGo_append_ok {recur : String → Except PyErr (List Clade)}
    {ni : List (String × NodeRec)} {l1 l2 : List String} {r1 r2 : List Clade}
    (h1 : parseKidsGo recur ni l1 = .ok r1) (h2 : parseKidsGo recur ni l2 = .ok r2) :
    parseKidsGo recur ni (l1 ++ l2) = .ok (r1 ++ r2) := by
  induction l1 generalizing r1 with
  | nil =>
    rw [parseKidsGo] at h1
    injection h1 with h1
    subst h1
    simpa using h2
  | cons ch rest ih =>
    rw [parseKidsGo] at h1
    rw [show ((ch :: rest) ++ l2) = ch :: (rest ++ l2) from rfl, parseKidsGo]
    rcases hnc : new_clade ni ch with e | cl
    · rw [hnc] at h1
      simp [bind, Except.bind] at h1
    · rw [hnc] at h1
      simp only [bind, Except.bind] at h1 ⊢
      rcases hpc : recur ch with e | cs
      · rw [hpc] at h1
        simp at h1
      · rw [hpc] at h1
        simp only at h1 ⊢
        rcases hpk : parseKidsGo recur ni rest with e | others
        · rw [hpk] at h1
          simp at h1
        · rw [hpk] at h1
          simp only [pure, Except.pure, Except.ok.injEq] at h1
          rw [ih hpk]
          simp only [pure, Except.pure, Except.ok.injEq]
          rw [← h1]
          simp

theorem parseKids_append_ok {ni : List (String × NodeRec)}
    {par : List (String × List String)} {fuel : Nat} {l1 l2 : List String}
    {r1 r2 : List Clade}
    (h1 : parseKids ni par fuel l1 = .ok r1) (h2 : parseKids ni par fuel l2 = .ok r2) :
    parseKids ni par fuel (l1 ++ l2) = .ok (r1 ++ r2) :=
  parseKidsGo_append_ok h1 h2

mutual
theorem mega_children (base : String) (t : Clade) (x : ACl)
    (hx : x ∈ subtreesA (annotateT t none true initW).1) (fuel : Nat)
    (hf : csizeA x ≤ fuel) :
    parse_children (niOf (query1Rows (modelOf base t)))
        (parOf [] (query1Rows (modelOf base t))) fuel
        (nUriS base (mkId "node" (aAnn x).nid))
      = .ok (rebuildInn (aKids x) ++ rebuildTer (aKids x)) := by
  match fuel with
  | 0 =>
    have := csizeA_pos x
    omega
  | f+1 =>
    rw [parse_children, show parseKidsGo (parse_children (niOf (query1Rows (modelOf base t)))
        (parOf [] (query1Rows (modelOf base t))) f) (niOf (query1Rows (modelOf base t)))
        (childrenOf (parOf [] (query1Rows (modelOf base t)))
          (nUriS base (mkId "node" (aAnn x).nid)))
      = parseKids (niOf (query1Rows (modelOf base t)))
          (parOf [] (query1Rows (modelOf base t))) f
          (childrenOf (parOf [] (query1Rows (modelOf base t)))
            (nUriS base (mkId "node" (aAnn x).nid))) from rfl,
      global_children_subtree base t hx]
    have h1 := mega_list base t ((aKids x).filter fun k => !(aAnn k).leaf)
      (fun k hk => mem_subtrees_kid hx (List.mem_filter.mp hk).1) f
      (fun k hk => by
        have := csizeA_kid_lt (List.mem_filter.mp hk).1
        omega)
    have h2 := mega_list base t ((aKids x).filter fun k => (aAnn k).leaf)
      (fun k hk => mem_subtrees_kid hx (List.mem_filter.mp hk).1) f
      (fun k hk => by
        have := csizeA_kid_lt (List.mem_filter.mp hk).1
        omega)
    rw [parseKids_append_ok h1 h2]
    rw [rebuildInn_eq_filter, rebuildTer_eq_filter]
termination_by (fuel, 0, 0)

theorem mega_list (base : String) (t : Clade) (sel : List ACl)
    (hsel : ∀ k ∈ sel, k ∈ subtreesA (annotateT t none true initW).1) (fuel : Nat)
    (hf : ∀ k ∈ sel, csizeA k ≤ fuel) :
    parseKids (niOf (query1Rows (modelOf base t)))
        (parOf [] (query1Rows (modelOf base t))) fuel
        (sel.map fun k => nUriS base (mkId "node" (aAnn k).nid))
      = .ok (sel.map rebuildA) := by
  match sel with
  | [] => rw [List.map_nil]; rfl
  | k :: rest =>
    have hk : k ∈ subtreesA (annotateT t none true initW).1 :=
      hsel k (List.mem_cons_self k rest)
    have hmem : aAnn k ∈ annsOf t := by
      rw [annsOf, ← subtreesA_map_ann]
      exact List.mem_map_of_mem aAnn hk
    have hnew : new_clade (niOf (query1Rows (modelOf base t)))
        (nUriS base (mkId "node" (aAnn k).nid))
        = .ok (.mk (recOf (aAnn k)).label (recOf (aAnn k)).branch_length []) := by
      rw [new_clade, global_lookup_ni base t hmem]
    have hrec := mega_children base t k hk fuel (hf k (List.mem_cons_self k rest))
    have hrest := mega_list base t rest
      (fun k2 hk2 => hsel k2 (List.mem_cons_of_mem k hk2)) fuel
      (fun k2 hk2 => hf k2 (List.mem_cons_of_mem k hk2))
    rw [List.map_cons, parseKids, parseKidsGo, hnew]
    rw [show ∀ (y : Clade) (f : Clade → Except PyErr (List Clade)),
      (Except.ok y >>= f) = f y from fun y f => rfl]
    rw [hrec]
    rw [show ∀ (y : List Clade) (f : List Clade → Except PyErr (List Clade)),
      (Except.ok y >>= f) = f y from fun y f => rfl]
    rw [show parseKidsGo (parse_children (niOf (query1Rows (modelOf base t)))
          (parOf [] (query1Rows (modelOf base t))) fuel)
          (niOf (query1Rows (modelOf base t)))
          (List.map (fun k2 => nUriS base (mkId "node" (aAnn k2).nid)) rest)
        = parseKids (niOf (query1Rows (modelOf base t)))
          (parOf [] (query1Rows (modelOf base t))) fuel
          (List.map (fun k2 => nUriS base (mkId "node" (aAnn k2).nid)) rest) from rfl]
    rw [hrest]
    rw [show ∀ (y : List Clade) (f : List Clade → Except PyErr (List Clade)),
      (Except.ok y >>= f) = f y from fun y f => rfl]
    rw [List.map_cons]
    match k with
    | .node a ks =>
      simp only [aAnn, aKids, rebuildA, recOf, Clade.withClades, pure, Except.pure]
termination_by (fuel, 1, sel.length)
end


/-! ### The root query and the assembled parse of one written tree -/

theorem annsOf_head (t : Clade) :
    annsOf t = aAnn (annotateT t none true initW).1
      :: flattenF (aKids (annotateT t none true initW).1) := by
  rw [annsOf, flattenA_cons]

theorem root_ann_mem (t : Clade) : aAnn (annotateT t none true initW).1 ∈ annsOf t := by
  rw [annsOf_head]
  exact List.mem_cons_self _ _

theorem root_ann_fields (t : Clade) :
    (aAnn (annotateT t none true initW).1).nid = 1
    ∧ (aAnn (annotateT t none true initW).1).trid = some 1 := by
  rw [annotateT_ann, mintAnn_fst]
  exact ⟨rfl, rfl⟩

theorem annsOf_trids (t : Clade) : (annsOf t).filterMap NodeAnn.trid = [1] := by
  rw [annsOf, flattenA_trids]
  rfl

theorem global_hasRoot (base : String) (t : Clade) :
    objsOf (modelOf base t) (nUriS base (mkId "tree" 1)) (qUriS "cdao:has_root")
      = [.uri (nUriS base (mkId "node" 1))] := by
  have ha := root_ann_mem t
  obtain ⟨hnid, htrid⟩ := root_ann_fields t
  rw [modelOf, objsOf_flatMap,
    flatMap_single (annsOf_nodup t) _ ha
      (fun b hb hbne => chunk_hasRoot_other base b _ (by
        intro k hk
        simp only [ne_eq, uri_tt]
        intro h1k
        subst h1k
        exact nodup_filterMap_some (by rw [annsOf_trids]; simp) hb ha hbne hk htrid))]
  rw [chunk_hasRoot_own base _ 1 htrid, hnid]

theorem global_rootPairs (base : String) (t : Clade) :
    rootPairs (modelOf base t)
      = [(nUriS base (mkId "tree" 1), nUriS base (mkId "node" 1))] := by
  rw [rootPairs, global_rootedTrees]
  simp only [List.flatMap_cons, List.flatMap_nil, List.append_nil]
  rw [global_hasRoot]
  rfl

mutual
theorem csizeA_annotateT (c : Clade) (pj : Option Nat) (root : Bool) (w : WCounters) :
    csizeA (annotateT c pj root w).1 = csize c := by
  match c with
  | .mk nm bl cs =>
    cases hcs : cs.isEmpty with
    | true =>
      have hnil : cs = [] := by
        cases cs with
        | nil => rfl
        | cons a l => simp [List.isEmpty] at hcs
      subst hnil
      simp [annotateT, csizeA, csizeF, csize, fsize]
    | false =>
      simp only [annotateT, hcs, Bool.false_eq_true, if_false, csizeA, csize]
      rw [csizeF_annotateKidsT]

theorem csizeF_annotateKidsT (cs : List Clade) (pj2 : Nat) (w : WCounters) :
    csizeF (annotateKidsT cs pj2 w).1 = fsize cs := by
  match cs with
  | [] => simp [annotateKidsT, csizeF, fsize]
  | c :: rest =>
    simp only [annotateKidsT, csizeF, fsize]
    rw [csizeA_annotateT, csizeF_annotateKidsT]
end

theorem parse_model_writer (base : String) (t : Clade) (rooted : Bool)
    (hg : goodRoot t = true) (fuel : Nat) (hf : csize t ≤ fuel) :
    parse_model rooted fuel (modelOf base t)
      = .ok [⟨rebuildA (annotateT t none true initW).1, rooted⟩] := by
  rw [parse_model, get_node_info_model base t (flattenA_good_root t initW hg)]
  rw [show ∀ (y : (List (String × NodeRec)) × (List (String × List String)))
      (f : (List (String × NodeRec)) × (List (String × List String))
        → Except PyErr (List Tree)),
      (Except.ok y >>= f) = f y from fun y f => rfl]
  rw [global_rootPairs, parseRoots]
  obtain ⟨hnid, htrid⟩ := root_ann_fields t
  have hnew : new_clade (niOf (query1Rows (modelOf base t)))
      (nUriS base (mkId "node" 1))
      = .ok (.mk (recOf (aAnn (annotateT t none true initW).1)).label
          (recOf (aAnn (annotateT t none true initW).1)).branch_length []) := by
    rw [new_clade, ← hnid, global_lookup_ni base t (root_ann_mem t)]
  rw [hnew]
  rw [show ∀ (y : Clade) (f : Clade → Except PyErr (List Tree)),
    (Except.ok y >>= f) = f y from fun y f => rfl]
  have hrec := mega_children base t (annotateT t none true initW).1
    (mem_subtreesA_self _) fuel (by rw [csizeA_annotateT]; exact hf)
  rw [hnid] at hrec
  rw [hrec]
  rw [show ∀ (y : List Clade) (f : List Clade → Except PyErr (List Tree)),
    (Except.ok y >>= f) = f y from fun y f => rfl]
  rw [parseRoots]
  rw [show ∀ (y : List Tree) (f : List Tree → Except PyErr (List Tree)),
    (Except.ok y >>= f) = f y from fun y f => rfl]
  cases hT : (annotateT t none true initW).1 with
  | node a ks =>
    simp only [aAnn, aKids, rebuildA, recOf, Clade.withClades, pure, Except.pure]


/-! ### The rebuilt tree is the written tree with children reordered -/

mutual
theorem rebuildA_shuffle (c : Clade) (pj : Nat) (w : WCounters) (hg : goodN c = true) :
    rebuildA (annotateT c (some pj) false w).1 = shuffleW c := by
  match c with
  | .mk nm bl cs =>
    simp only [goodN, Bool.and_eq_true, decide_eq_true_eq] at hg
    obtain ⟨⟨hbl, hnm⟩, hkids⟩ := hg
    cases hT : (annotateT (.mk nm bl cs) (some pj) false w).1 with
    | node a ks =>
      have hann : a = (mintAnn (.mk nm bl cs) (some (mkId "node" pj)) false w).1 := by
        have := annotateT_ann (.mk nm bl cs) (some pj) false w
        rw [hT] at this
        simpa [aAnn] using this
      have hks : ks = (annotateKidsT cs
          ((mintAnn (.mk nm bl cs) (some (mkId "node" pj)) false w).1.nid)
          (mintAnn (.mk nm bl cs) (some (mkId "node" pj)) false w).2).1 := by
        have := annotateT_kids (.mk nm bl cs) (some pj) false w
        rw [hT] at this
        simpa [aKids, Clade.clades] using this
      rw [rebuildA, hann, mintAnn_fst]
      simp only [Clade.name, Clade.branch_length, Clade.clades]
      rcases hb : bl with _ | q
      · rw [hb] at hbl
        simp at hbl
      · rw [hks, rebuildInn_shuffle cs _ _ hkids, rebuildTer_shuffle cs _ _ hkids]
        rw [shuffleW]
        rcases hn : nm with _ | s
        · rfl
        · have hs : ¬ (s = "") := by
            intro hcon
            rw [hn, hcon] at hnm
            exact hnm rfl
          simp [truthy, hs]

theorem rebuildInn_shuffle (cs : List Clade) (pj2 : Nat) (w : WCounters)
    (hg : goodF cs = true) :
    rebuildInn (annotateKidsT cs pj2 w).1 = shuffleInn cs := by
  match cs with
  | [] => rw [show (annotateKidsT [] pj2 w).1 = [] from rfl]; rfl
  | c :: rest =>
    simp only [goodF, Bool.and_eq_true] at hg
    simp only [annotateKidsT, rebuildInn, shuffleInn]
    have hleaf : (aAnn (annotateT c (some pj2) false w).1).leaf = c.clades.isEmpty := by
      rw [annotateT_ann, mintAnn_fst]
    rw [hleaf]
    cases hce : c.clades.isEmpty with
    | true =>
      simp only [if_pos]
      exact rebuildInn_shuffle rest pj2 _ hg.2
    | false =>
      simp only [Bool.false_eq_true, if_false]
      rw [rebuildA_shuffle c pj2 w hg.1, rebuildInn_shuffle rest pj2 _ hg.2]

theorem rebuildTer_shuffle (cs : List Clade) (pj2 : Nat) (w : WCounters)
    (hg : goodF cs = true) :
    rebuildTer (annotateKidsT cs pj2 w).1 = shuffleTer cs := by
  match cs with
  | [] => rw [show (annotateKidsT [] pj2 w).1 = [] from rfl]; rfl
  | c :: rest =>
    simp only [goodF, Bool.and_eq_true] at hg
    simp only [annotateKidsT, rebuildTer, shuffleTer]
    have hleaf : (aAnn (annotateT c (some pj2) false w).1).leaf = c.clades.isEmpty := by
      rw [annotateT_ann, mintAnn_fst]
    rw [hleaf]
    cases hce : c.clades.isEmpty with
    | true =>
      simp only [if_pos]
      rw [rebuildA_shuffle c pj2 w hg.1, rebuildTer_shuffle rest pj2 _ hg.2]
    | false =>
      simp only [Bool.false_eq_true, if_false]
      exact rebuildTer_shuffle rest pj2 _ hg.2
end

theorem rebuildA_shuffle_root (t : Clade) (hg : goodRoot t = true) :
    rebuildA (annotateT t none true initW).1 = shuffleW t := by
  match t with
  | .mk nm bl cs =>
    simp only [goodRoot, Bool.and_eq_true, decide_eq_true_eq] at hg
    obtain ⟨⟨hbl, hnm⟩, hkids⟩ := hg
    cases hT : (annotateT (.mk nm bl cs) none true initW).1 with
    | node a ks =>
      have hann : a = (mintAnn (.mk nm bl cs) none true initW).1 := by
        have := annotateT_ann (.mk nm bl cs) none true initW
        rw [hT] at this
        simpa [aAnn] using this
      have hks : ks = (annotateKidsT cs
          ((mintAnn (.mk nm bl cs) none true initW).1.nid)
          (mintAnn (.mk nm bl cs) none true initW).2).1 := by
        have := annotateT_kids (.mk nm bl cs) none true initW
        rw [hT] at this
        simpa [aKids, Clade.clades] using this
      rw [rebuildA, hann, mintAnn_fst]
      simp only [Clade.name, Clade.branch_length, Clade.clades]
      have hbln : bl = none := by
        rcases hb : bl with _ | q
        · rfl
        · rw [hb] at hbl
          simp at hbl
      subst hbln
      rw [hks, rebuildInn_shuffle cs _ _ hkids, rebuildTer_shuffle cs _ _ hkids]
      rw [shuffleW]
      rcases hn : nm with _ | s
      · rfl
      · have hs : ¬ (s = "") := by
          intro hcon
          rw [hn, hcon] at hnm
          exact hnm rfl
        simp [truthy, hs]

theorem shuffleInn_eq_filter (cs : List Clade) :
    shuffleInn cs = ((cs.filter fun c => !c.clades.isEmpty).map shuffleW) := by
  induction cs with
  | nil => rfl
  | cons c rest ih =>
    rw [shuffleInn, List.filter_cons]
    cases hce : c.clades.isEmpty <;> simp [hce, ih]

theorem shuffleTer_eq_filter (cs : List Clade) :
    shuffleTer cs = ((cs.filter fun c => c.clades.isEmpty).map shuffleW) := by
  induction cs with
  | nil => rfl
  | cons c rest ih =>
    rw [shuffleTer, List.filter_cons]
    cases hce : c.clades.isEmpty <;> simp [hce, ih]

theorem shuffleW_perm (d : Clade) :
    (shuffleW d).name = d.name ∧ (shuffleW d).branch_length = d.branch_length
    ∧ (shuffleW d).clades.Perm (d.clades.map shuffleW) := by
  match d with
  | .mk nm bl cs =>
    refine ⟨rfl, rfl, ?_⟩
    rw [show (shuffleW (.mk nm bl cs)).clades = shuffleInn cs ++ shuffleTer cs from rfl]
    rw [shuffleInn_eq_filter, shuffleTer_eq_filter, ← List.map_append]
    apply List.Perm.map
    have h := List.filter_append_perm (fun c : Clade => !c.clades.isEmpty) cs
    have h2 : (cs.filter fun c => !!c.clades.isEmpty) = cs.filter fun c => c.clades.isEmpty := by
      apply List.filter_congr
      intro a _
      simp
    rw [h2] at h
    exact h.trans (List.Perm.refl cs) |>.symm |>.symm


/-- Claim C1, amended.  Decomposing a tree with the Writer (process_clade on a
fresh Writer) and reconstructing the statement set with the Parser
(get_node_info followed by parse_model) yields exactly one tree with
identical clade labels, identical branch lengths and identical topology up to
reordering of each node children (the reconstruction puts internal children
before terminal children), PROVIDED the root carries no branch length, every
non-root clade carries one, and no clade name is the empty string.  The
second conjunct states that the reconstructed tree shuffleW t differs from t
only by a permutation of each node child list. -/
theorem c1_roundtrip_amended (base : String) (t : Clade) (rooted : Bool)
    (hg : goodRoot t = true) (fuel : Nat) (hf : csize t ≤ fuel) :
    parse_model rooted fuel (process_clade base t none true initW).1
      = .ok [⟨shuffleW t, rooted⟩]
    ∧ ∀ d : Clade, (shuffleW d).name = d.name
        ∧ (shuffleW d).branch_length = d.branch_length
        ∧ (shuffleW d).clades.Perm (d.clades.map shuffleW) := by
  constructor
  · rw [modelOf_eq_process, parse_model_writer base t rooted hg fuel hf,
      rebuildA_shuffle_root t hg]
  · exact shuffleW_perm

/-- Witness for claim C1: the amended round trip evaluated on the concrete
tree (B:2.0)A (root A with no branch length, one leaf child B). -/
theorem c1_roundtrip_amended_witness :
    goodRoot (Clade.mk (some "A") none [Clade.mk (some "B") (some 2) []]) = true
    ∧ csize (Clade.mk (some "A") none [Clade.mk (some "B") (some 2) []]) ≤ 2
    ∧ parse_model false 2
        (process_clade "" (Clade.mk (some "A") none [Clade.mk (some "B") (some 2) []])
          none true initW).1
      = .ok [⟨shuffleW (Clade.mk (some "A") none [Clade.mk (some "B") (some 2) []]), false⟩] :=
  ⟨by decide, by decide,
   (c1_roundtrip_amended "" (Clade.mk (some "A") none [Clade.mk (some "B") (some 2) []])
     false (by decide) 2 (by decide)).1⟩

/-- Counterexample to claim C1 as stated: the tree consisting of a single
root clade with branch length 1 reconstructs to a root with no branch length
(the writer emits no parent edge for the root), so the round trip does not
preserve branch lengths for every finite-depth tree. -/
theorem c1_counterexample :
    parse_model false 1
        (process_clade "" (Clade.mk none (some 1) []) none true initW).1
      = .ok [⟨Clade.mk none none [], false⟩]
    ∧ (Clade.mk none (some 1) []).branch_length = some 1
    ∧ (Clade.mk none none []).branch_length ≠ (Clade.mk none (some 1) []).branch_length := by
  refine ⟨?_, rfl, by decide⟩
  rfl


/-! ### Claim C9: missing handle name -/

/-- Claim C9: a Parser built with from_string carries a handle with no name
attribute, so parse without an explicit base_uri fails with an
attribute-access error before any statements are loaded (the failure holds
for every statement loader), while supplying base_uri takes the other branch
and succeeds for any handle. -/
theorem c9_from_string_needs_base_uri (loadStmts : String → String → List Stmt)
    (s : String) (rooted : Bool) (fuel : Nat) (h : Handle) (u : String) :
    parse_handle_to_model loadStmts (Parser.from_string s) none rooted fuel
      = .error .attributeError
    ∧ resolve_base_uri h (some u) = .ok u :=
  ⟨rfl, rfl⟩

/-! ### Claim C4: missing adjacency entry versus missing node record -/

/-- Claim C4: a node with no entry in the parents adjacency table yields an
empty child list from parse_children (silently treated as terminal), while a
node with no Node Info Record makes new_clade fail with a KeyError. -/
theorem c4_missing_lookups (ni : List (String × NodeRec))
    (par : List (String × List String)) (fuel : Nat) (node : String)
    (hpar : lookupA par node = none) (hni : lookupA ni node = none) :
    parse_children ni par (fuel + 1) node = .ok [] ∧ new_clade ni node = .error .keyError := by
  constructor
  · rw [parse_children]
    have hch : childrenOf par node = [] := by
      rw [childrenOf, hpar]
      rfl
    rw [hch]
    rfl
  · rw [new_clade, hni]

/-- Witness for claim C4 at the empty dictionaries and the node name n. -/
theorem c4_missing_lookups_witness :
    parse_children [] [] 1 "n" = .ok [] ∧ new_clade [] "n" = .error .keyError :=
  c4_missing_lookups [] [] 0 "n" rfl rfl

/-! ### Claim C3: the return value of write -/

theorem process_clade_tree_counter (base : String) (c : Clade) (w : WCounters) :
    (process_clade base c none true w).2.tree_counter = w.tree_counter + 1 := by
  have h : process_clade base c none true w
      = ((flattenA (annotateT c none true w).1).flatMap (annStmts base),
         (annotateT c none true w).2) := process_eq_annotate base c none true w
  rw [h, annotateT_counters]
  simp

theorem add_trees_foldl_tree_counter (base : String) (trees : List Tree) :
    ∀ (acc : List Stmt) (w : WCounters),
    (trees.foldl
        (fun mw t =>
          let s := process_clade base t.clade none true mw.2
          (mw.1 ++ s.1, s.2))
        (acc, w)).2.tree_counter = w.tree_counter + trees.length := by
  induction trees with
  | nil => intro acc w; simp
  | cons t ts ih =>
    intro acc w
    rw [List.foldl_cons]
    rw [ih]
    rw [process_clade_tree_counter]
    simp [List.length_cons]
    omega

theorem add_trees_tree_counter (base : String) (trees : List Tree) (w : WCounters) :
    (add_trees_to_model base trees w).2.tree_counter = w.tree_counter + trees.length :=
  add_trees_foldl_tree_counter base trees [ontologyStmt] w

/-- Claim C3: the module-level write returns Python None, not the number of
trees written; Writer.write computes that count (serialize_model evaluates to
the tree counter, which after the batch equals the number of trees) but
discards it by falling off the end of the function. -/
theorem c3_write_returns_none (trees : List Tree) (base : String) :
    write trees = none
    ∧ serialize_model (Writer.write trees base).1.2 = trees.length := by
  constructor
  · rfl
  · show serialize_model (add_trees_to_model base trees initW).2 = trees.length
    rw [serialize_model, add_trees_tree_counter]
    simp [initW]



/-! ### Claim C10: exactly one ontology statement per batch -/

theorem annStmts_countP_ont (base : String) (a : NodeAnn) :
    (annStmts base a).countP
        (fun st => decide (st.pred = qUriS "rdf:type")
          && decide (st.obj = RNode.uri (qUriS "owl:Ontology"))) = 0 := by
  obtain ⟨nid, trid, tid, eid, pUri, nm, bl, leaf⟩ := a
  rcases trid with _ | tk <;> rcases tid with _ | tuk <;> rcases pUri with _ | pu <;>
    rcases eid with _ | ek <;> rcases leaf with _ | _ <;>
      simp +decide [annStmts, List.countP_cons, List.countP_append]

mutual
theorem process_countP_ont (base : String) (c : Clade) (p : Option String)
    (root : Bool) (w : WCounters) :
    (process_clade base c p root w).1.countP
        (fun st => decide (st.pred = qUriS "rdf:type")
          && decide (st.obj = RNode.uri (qUriS "owl:Ontology"))) = 0 := by
  match c with
  | .mk nm bl cs =>
    cases hcs : cs.isEmpty with
    | true =>
      simp only [process_clade, hcs, if_pos]
      exact annStmts_countP_ont base _
    | false =>
      have hk := process_kids_countP_ont base cs
        (mkId "node" (mintAnn (.mk nm bl cs) p root w).1.nid)
        (mintAnn (.mk nm bl cs) p root w).2
      simp only [process_clade, hcs, Bool.false_eq_true, if_false, List.countP_append]
      rw [hk, annStmts_countP_ont]

theorem process_kids_countP_ont (base : String) (cs : List Clade) (puri : String)
    (w : WCounters) :
    (process_kids base cs puri w).1.countP
        (fun st => decide (st.pred = qUriS "rdf:type")
          && decide (st.obj = RNode.uri (qUriS "owl:Ontology"))) = 0 := by
  match cs with
  | [] => rfl
  | c :: rest =>
    have h1 := process_countP_ont base c (some puri) false w
    have h2 := process_kids_countP_ont base rest puri
      (process_clade base c (some puri) false w).2
    simp only [process_kids, List.countP_append]
    rw [h1, h2]
end

theorem batchStmts_countP_ont (base : String) (trees : List Tree) (w : WCounters) :
    (batchStmts base trees w).countP
        (fun st => decide (st.pred = qUriS "rdf:type")
          && decide (st.obj = RNode.uri (qUriS "owl:Ontology"))) = 0 := by
  induction trees generalizing w with
  | nil => rfl
  | cons t ts ih =>
    simp only [batchStmts, List.countP_append]
    rw [process_countP_ont, ih]

theorem add_trees_foldl_fst (base : String) (trees : List Tree) :
    ∀ (acc : List Stmt) (w : WCounters),
    (trees.foldl
        (fun mw t =>
          let s := process_clade base t.clade none true mw.2
          (mw.1 ++ s.1, s.2))
        (acc, w)).1 = acc ++ batchStmts base trees w := by
  induction trees with
  | nil => intro acc w; simp [batchStmts]
  | cons t ts ih =>
    intro acc w
    rw [List.foldl_cons, ih]
    simp [batchStmts]

theorem add_trees_fst (base : String) (trees : List Tree) (w : WCounters) :
    (add_trees_to_model base trees w).1 = ontologyStmt :: batchStmts base trees w :=
  add_trees_foldl_fst base trees [ontologyStmt] w

/-- Claim C10: every invocation of add_trees_to_model emits the statement
typing the CDAO namespace as an owl:Ontology first, ahead of all per-tree
statements, and it is the only statement of the batch whose type object is
owl:Ontology, for any number of trees including zero. -/
theorem c10_single_ontology_stmt (base : String) (trees : List Tree) (w : WCounters) :
    (add_trees_to_model base trees w).1 = ontologyStmt :: batchStmts base trees w
    ∧ (add_trees_to_model base trees w).1.countP
        (fun st => decide (st.pred = qUriS "rdf:type")
          && decide (st.obj = RNode.uri (qUriS "owl:Ontology"))) = 1 := by
  refine ⟨add_trees_fst base trees w, ?_⟩
  rw [add_trees_fst, List.countP_cons]
  rw [batchStmts_countP_ont]
  simp +decide [ontologyStmt]



/-! ### Claim C5: exactly one node-kind type statement per clade -/

/-- Claim C5: the statement block emitted for one clade contains exactly one
node-kind rdf:type statement, whose object is cdao:TerminalNode when the
child sequence is empty and cdao:AncestralNode otherwise — never both and
never neither. -/
theorem c5_node_kind (base : String) (nm : Option String) (bl : Option Rat)
    (cs : List Clade) (p : Option String) (root : Bool) (w : WCounters) :
    (annStmts base (mintAnn (Clade.mk nm bl cs) p root w).1).filter
        (fun st => decide (st.pred = qUriS "rdf:type")
          && (decide (st.obj = RNode.uri (qUriS "cdao:TerminalNode"))
            || decide (st.obj = RNode.uri (qUriS "cdao:AncestralNode"))))
      = [⟨nUriS base (mkId "node" (w.node_counter + 1)),
          qUriS "rdf:type",
          .uri (qUriS (if cs.isEmpty then "cdao:TerminalNode" else "cdao:AncestralNode"))⟩] := by
  rcases p with _ | pu <;> cases root <;> cases htr : truthy nm <;> cases hcs : cs.isEmpty <;>
    simp +decide [mintAnn, annStmts, htr, hcs, List.filter_append]

/-! ### Claim C6: TU statements exactly for truthy names -/

/-- Claim C6: the statement block emitted for one clade contains the three TU
statements (the TU typing, the represents_TU relation from the node, and the
rdf:label statement carrying the name) exactly when the clade name is
non-empty, and no TU-related statement otherwise. -/
theorem c6_tu_statements (base : String) (nm : Option String) (bl : Option Rat)
    (cs : List Clade) (p : Option String) (root : Bool) (w : WCounters) :
    (annStmts base (mintAnn (Clade.mk nm bl cs) p root w).1).filter
        (fun st => decide (st.pred = qUriS "cdao:represents_TU")
          || decide (st.pred = qUriS "rdf:label")
          || (decide (st.pred = qUriS "rdf:type")
            && decide (st.obj = RNode.uri (qUriS "cdao:TU"))))
      = if truthy nm then
          [⟨nUriS base (mkId "tu" (w.tu_counter + 1)), qUriS "rdf:type",
            .uri (qUriS "cdao:TU")⟩,
           ⟨nUriS base (mkId "node" (w.node_counter + 1)), qUriS "cdao:represents_TU",
            .uri (nUriS base (mkId "tu" (w.tu_counter + 1)))⟩,
           ⟨nUriS base (mkId "tu" (w.tu_counter + 1)), qUriS "rdf:label",
            .lit (.str (nm.getD ""))⟩]
        else [] := by
  rcases p with _ | pu <;> cases root <;> cases htr : truthy nm <;> cases hcs : cs.isEmpty <;>
    simp +decide [mintAnn, annStmts, htr, hcs, List.filter_append]

/-! ### Claim C2: EdgeLength statements follow the parent, not the branch length -/

/-- Counterexample to claim C2 as stated: a child clade with NO branch length
still makes the writer emit the EdgeLength entity — its typing statement and
its has_value statement carrying the text of Python None — because the code
emits the three EdgeLength statements whenever a parent exists, regardless of
the branch length. -/
theorem c2_counterexample :
    (Clade.mk none none []).branch_length = none
    ∧ Stmt.mk (nUriS "" (mkId "edge_annotation" 1)) (qUriS "rdf:type")
        (RNode.uri (qUriS "cdao:EdgeLength"))
      ∈ (process_clade "" (Clade.mk none none []) (some "node0") false initW).1
    ∧ Stmt.mk (nUriS "" (mkId "edge_annotation" 1)) (qUriS "cdao:has_value")
        (RNode.lit PyVal.noneV)
      ∈ (process_clade "" (Clade.mk none none []) (some "node0") false initW).1 := by
  refine ⟨rfl, by decide, by decide⟩

/-- Claim C2 amended: the statement block emitted for one clade contains the
three EdgeLength statements (the typing, the attachment to the edge, and the
has_value literal holding str of the branch length — the text of Python None
when the branch length is absent) exactly when the clade has a parent, and no
EdgeLength-related statement otherwise. -/
theorem c2_edge_ann_amended (base : String) (nm : Option String) (bl : Option Rat)
    (cs : List Clade) (p : Option String) (root : Bool) (w : WCounters) :
    (annStmts base (mintAnn (Clade.mk nm bl cs) p root w).1).filter
        (fun st => decide (st.pred = qUriS "cdao:has_annotation")
          || decide (st.pred = qUriS "cdao:has_value")
          || (decide (st.pred = qUriS "rdf:type")
            && decide (st.obj = RNode.uri (qUriS "cdao:EdgeLength"))))
      = match p with
        | some _ =>
          [⟨nUriS base (mkId "edge_annotation" (w.edge_counter + 1)), qUriS "rdf:type",
            .uri (qUriS "cdao:EdgeLength")⟩,
           ⟨nUriS base (mkId "edge" (w.edge_counter + 1)), qUriS "cdao:has_annotation",
            .uri (nUriS base (mkId "edge_annotation" (w.edge_counter + 1)))⟩,
           ⟨nUriS base (mkId "edge_annotation" (w.edge_counter + 1)), qUriS "cdao:has_value",
            .lit (strOfBL bl)⟩]
        | none => [] := by
  rcases p with _ | pu <;> cases root <;> cases htr : truthy nm <;> cases hcs : cs.isEmpty <;>
    simp +decide [mintAnn, annStmts, htr, hcs, List.filter_append]



/-! ### Claim C7: monotone counters and pairwise distinct identifiers -/

theorem process_clade_wLE (base : String) (c : Clade) (w : WCounters) :
    wLE w (process_clade base c none true w).2 := by
  have h : process_clade base c none true w
      = ((flattenA (annotateT c none true w).1).flatMap (annStmts base),
         (annotateT c none true w).2) := process_eq_annotate base c none true w
  rw [h, annotateT_counters, wLE]
  refine ⟨Nat.le_add_right _ _, ?_, ?_, Nat.le_add_right _ _⟩
  · simp only []
    split <;> omega
  · simp only []
    split <;> omega

theorem scanl_head {α β : Type} (f : β → α → β) (w : β) (ts : List α) :
    (List.scanl f w ts).head? = some w := by
  cases ts <;> rfl

theorem batchStates_chain (base : String) (trees : List Tree) :
    ∀ w : WCounters, List.Chain' wLE (batchStates base trees w) := by
  induction trees with
  | nil => intro w; simp [batchStates, List.scanl]
  | cons t ts ih =>
    intro w
    rw [batchStates, List.scanl_cons, List.singleton_append, List.chain'_cons']
    constructor
    · intro y hy
      have hh := scanl_head
        (fun wa (tr : Tree) => (process_clade base tr.clade none true wa).2)
        ((process_clade base t.clade none true w).2) ts
      rw [hh, Option.mem_some_iff] at hy
      rw [← hy]
      exact process_clade_wLE base t.clade w
    · exact ih ((process_clade base t.clade none true w).2)

theorem mintedIds_nodup (w : WCounters) : (mintedIds w).Nodup := by
  have hinj : ∀ kind : String, Function.Injective (mkId kind) :=
    fun kind i j h => mkId_inj h
  have hn : ∀ (kind : String) (n : Nat), ((List.range' 1 n).map (mkId kind)).Nodup :=
    fun kind n => (List.nodup_range' 1 n).map (hinj kind)
  have hd : ∀ (k1 k2 : String) (n1 n2 : Nat),
      (∀ i j : Nat, mkId k1 i ≠ mkId k2 j) →
      List.Disjoint ((List.range' 1 n1).map (mkId k1)) ((List.range' 1 n2).map (mkId k2)) := by
    intro k1 k2 n1 n2 hne a ha hb
    rw [List.mem_map] at ha hb
    obtain ⟨i, _, hi⟩ := ha
    obtain ⟨j, _, hj⟩ := hb
    exact hne i j (hi.trans hj.symm)
  rw [mintedIds]
  rw [List.nodup_append, List.nodup_append, List.nodup_append]
  refine ⟨⟨⟨hn _ _, hn _ _, hd _ _ _ _ mkId_node_ne_edge⟩, hn _ _, ?_⟩, hn _ _, ?_⟩
  · intro a ha hb
    rw [List.mem_append] at ha
    rcases ha with ha | ha
    · exact hd _ _ _ _ mkId_node_ne_tree ha hb
    · exact hd _ _ _ _ mkId_edge_ne_tree ha hb
  · intro a ha hb
    rw [List.mem_append] at ha
    rcases ha with ha | ha
    · rw [List.mem_append] at ha
      rcases ha with ha | ha
      · exact hd _ _ _ _ mkId_node_ne_tu ha hb
      · exact hd _ _ _ _ mkId_edge_ne_tu ha hb
    · exact hd _ _ _ _ mkId_tree_ne_tu ha hb

/-- Claim C7: across one batch decomposition the writer counter state only
grows from tree to tree (componentwise, never reset), and all node, edge,
tree and TU identifiers minted by the final counter state are pairwise
distinct. -/
theorem c7_counters_monotone_ids_distinct (base : String) (trees : List Tree) :
    List.Chain' wLE (batchStates base trees initW)
    ∧ (mintedIds (add_trees_to_model base trees initW).2).Nodup :=
  ⟨batchStates_chain base trees initW,
   mintedIds_nodup (add_trees_to_model base trees initW).2⟩



/-! ### Claim C8: namespace expansion in qUri -/

theorem replaceF_no_occ (pat rep : List Char) :
    ∀ (fuel : Nat) (l : List Char), ¬(pat <:+: l) → replaceF pat rep fuel l = l := by
  intro fuel
  induction fuel with
  | zero => intro l _; rfl
  | succ f ih =>
    intro l hno
    cases l with
    | nil => rfl
    | cons c rest =>
      rw [replaceF]
      have hpre : pat.isPrefixOf (c :: rest) = false := by
        cases hp : pat.isPrefixOf (c :: rest) with
        | false => rfl
        | true =>
          exact absurd ((List.isPrefixOf_iff_prefix.mp hp).isInfix) hno
      rw [hpre]
      simp only [Bool.false_eq_true, if_false]
      rw [ih rest]
      intro hin
      exact hno (hin.trans (List.infix_cons (List.infix_refl rest)))

theorem replaceF_head (pat rep t : List Char) (hpat : pat ≠ []) (fuel : Nat) :
    replaceF pat rep (fuel + 1) (pat ++ t) = rep ++ replaceF pat rep fuel t := by
  cases pat with
  | nil => exact absurd rfl hpat
  | cons p ps =>
    rw [show ((p :: ps) ++ t) = p :: (ps ++ t) from rfl, replaceF]
    have hpre : (p :: ps).isPrefixOf (p :: (ps ++ t)) = true := by
      rw [List.isPrefixOf_iff_prefix]
      exact ⟨t, by simp⟩
    rw [hpre]
    simp only [if_pos]
    have hlen : (p :: ps).length - 1 = ps.length := by simp
    rw [hlen, List.drop_left]

theorem split_concat_occurrence {pat x y : List Char} (h : pat <:+: (x ++ y)) :
    pat <:+: x ∨ pat <:+: y
    ∨ ∃ k, 0 < k ∧ k < pat.length ∧ pat.take k <:+ x ∧ pat.drop k <+: y := by
  obtain ⟨s, t, he⟩ := h
  by_cases hsx : s.length + pat.length ≤ x.length
  · left
    have hsp : (s ++ pat) <+: (x ++ y) := ⟨t, by rw [← he, List.append_assoc]⟩
    have hx : x <+: (x ++ y) := ⟨y, rfl⟩
    have hpx : (s ++ pat) <+: x :=
      List.prefix_of_prefix_length_le hsp hx (by simpa using hsx)
    obtain ⟨r, hr⟩ := hpx
    exact ⟨s, r, by rw [← hr, List.append_assoc]⟩
  · by_cases hxy : x.length ≤ s.length
    · right; left
      have hsp : s <+: (x ++ y) := ⟨pat ++ t, by rw [← he, List.append_assoc]⟩
      have hx : x <+: (x ++ y) := ⟨y, rfl⟩
      have hxs : x <+: s := List.prefix_of_prefix_length_le hx hsp hxy
      obtain ⟨r, hr⟩ := hxs
      refine ⟨r, t, ?_⟩
      rw [← hr] at he
      simp only [List.append_assoc] at he ⊢
      exact List.append_cancel_left he
    · right; right
      push_neg at hsx hxy
      refine ⟨x.length - s.length, by omega, by omega, ?_, ?_⟩
      · -- pat.take (x.length - s.length) is a suffix of x
        have hsp : s <+: x := by
          have hs1 : s <+: (x ++ y) := ⟨pat ++ t, by rw [← he, List.append_assoc]⟩
          have hx : x <+: (x ++ y) := ⟨y, rfl⟩
          exact List.prefix_of_prefix_length_le hs1 hx (by omega)
        obtain ⟨xr, hxr⟩ := hsp
        have hxrlen : xr.length = x.length - s.length := by
          have := congrArg List.length hxr
          simp at this
          omega
        have hpt : pat ++ t = xr ++ y := by
          have h2 := he
          rw [← hxr] at h2
          simp only [List.append_assoc] at h2
          exact List.append_cancel_left h2
        have hxrtake : xr = pat.take (x.length - s.length) := by
          have : (pat ++ t).take xr.length = (xr ++ y).take xr.length := by rw [hpt]
          rw [List.take_left] at this
          rw [List.take_append_of_le_length (by omega)] at this
          rw [← this, hxrlen]
        exact ⟨s, by rw [← hxrtake, hxr]⟩
      · -- pat.drop (x.length - s.length) is a prefix of y
        have hsp : s <+: x := by
          have hs1 : s <+: (x ++ y) := ⟨pat ++ t, by rw [← he, List.append_assoc]⟩
          have hx : x <+: (x ++ y) := ⟨y, rfl⟩
          exact List.prefix_of_prefix_length_le hs1 hx (by omega)
        obtain ⟨xr, hxr⟩ := hsp
        have hxrlen : xr.length = x.length - s.length := by
          have := congrArg List.length hxr
          simp at this
          omega
        have hpt : pat ++ t = xr ++ y := by
          have h2 := he
          rw [← hxr] at h2
          simp only [List.append_assoc] at h2
          exact List.append_cancel_left h2
        have hxrtake : xr = pat.take (x.length - s.length) := by
          have : (pat ++ t).take xr.length = (xr ++ y).take xr.length := by rw [hpt]
          rw [List.take_left] at this
          rw [List.take_append_of_le_length (by omega)] at this
          rw [← this, hxrlen]
        refine ⟨t, ?_⟩
        have h3 : pat.take (x.length - s.length) ++ (pat.drop (x.length - s.length) ++ t)
            = pat.take (x.length - s.length) ++ y := by
          rw [← List.append_assoc, List.take_append_drop, hpt, hxrtake]
        exact List.append_cancel_left h3

theorem no_occ_concat (pat x y : List Char)
    (hx : ¬ pat <:+: x) (hy : ¬ pat <:+: y)
    (hstr : ∀ k, 0 < k → k < pat.length → ¬ (pat.take k <:+ x)) :
    ¬ pat <:+: (x ++ y) := by
  intro h
  rcases split_concat_occurrence h with h1 | h2 | ⟨k, hk0, hkl, hksuf, _⟩
  · exact hx h1
  · exact hy h2
  · exact hstr k hk0 hkl hksuf

theorem pyReplace_no_occ (s pat rep : String) (h : ¬(pat.data <:+: s.data)) :
    pyReplace s pat rep = s := by
  rw [pyReplace, replaceF_no_occ pat.data rep.data s.data.length s.data h]

theorem pyReplace_head_only (pre rest rep : String) (hp : pre.data ≠ [])
    (h : ¬ pre.data <:+: rest.data) : pyReplace (pre ++ rest) pre rep = rep ++ rest := by
  rw [pyReplace]
  have hd : (pre ++ rest).data = pre.data ++ rest.data := String.data_append pre rest
  rw [hd]
  have hlen : (pre.data ++ rest.data).length = (pre.data.length - 1 + rest.data.length) + 1 := by
    cases hpd : pre.data with
    | nil => exact absurd hpd hp
    | cons a l => simp [hpd]
  rw [hlen, replaceF_head pre.data rep.data rest.data hp]
  rw [replaceF_no_occ pre.data rep.data _ rest.data h]
  exact (String.data_append rep rest) ▸ rfl

/-- The three successive replacement passes of qUriS in table order. -/
theorem qUriS_eq (s : String) :
    qUriS s = pyReplace (pyReplace (pyReplace s "owl:" owlNS) "cdao:" cdaoNS) "rdf:" rdfNS := by
  rfl

set_option maxRecDepth 8192 in
/-- Claim C8: the namespace expansion replaces a recognized prefix token
followed by a colon with the registered base URI (each of owl, cdao and rdf),
leaves a string free of recognized tokens unchanged (unknown prefixes stay as
literal text, and the operation never fails since it is total), and replaces
every occurrence, as the three-token concrete instance shows. -/
theorem c8_quri_expansion (r s : String) (hr : noTokens r) (hs : noTokens s) :
    qUriS ("owl:" ++ r) = owlNS ++ r
    ∧ qUriS ("cdao:" ++ r) = cdaoNS ++ r
    ∧ qUriS ("rdf:" ++ r) = rdfNS ++ r
    ∧ qUriS s = s
    ∧ qUriS "cdao:has_Parent rdf:type owl:Thing"
      = cdaoNS ++ "has_Parent " ++ rdfNS ++ "type " ++ owlNS ++ "Thing" := by
  obtain ⟨hro, hrc, hrr⟩ := hr
  obtain ⟨hso, hsc, hsr⟩ := hs
  refine ⟨?_, ?_, ?_, ?_, ?_⟩
  · rw [qUriS_eq, pyReplace_head_only "owl:" r owlNS (by decide) hro]
    have h2 : pyReplace (owlNS ++ r) "cdao:" cdaoNS = owlNS ++ r := by
      apply pyReplace_no_occ
      rw [String.data_append]
      apply no_occ_concat _ _ _ (by decide) hrc
      intro k hk0 hkl
      rw [show ("cdao:".data).length = 5 from rfl] at hkl
      interval_cases k <;> decide
    rw [h2]
    apply pyReplace_no_occ
    rw [String.data_append]
    apply no_occ_concat _ _ _ (by decide) hrr
    intro k hk0 hkl
    rw [show ("rdf:".data).length = 4 from rfl] at hkl
    interval_cases k <;> decide
  · rw [qUriS_eq]
    have h1 : pyReplace ("cdao:" ++ r) "owl:" owlNS = "cdao:" ++ r := by
      apply pyReplace_no_occ
      rw [String.data_append]
      apply no_occ_concat _ _ _ (by decide) hro
      intro k hk0 hkl
      rw [show ("owl:".data).length = 4 from rfl] at hkl
      interval_cases k <;> decide
    rw [h1, pyReplace_head_only "cdao:" r cdaoNS (by decide) hrc]
    apply pyReplace_no_occ
    rw [String.data_append]
    apply no_occ_concat _ _ _ (by decide) hrr
    intro k hk0 hkl
    rw [show ("rdf:".data).length = 4 from rfl] at hkl
    interval_cases k <;> decide
  · rw [qUriS_eq]
    have h1 : pyReplace ("rdf:" ++ r) "owl:" owlNS = "rdf:" ++ r := by
      apply pyReplace_no_occ
      rw [String.data_append]
      apply no_occ_concat _ _ _ (by decide) hro
      intro k hk0 hkl
      rw [show ("owl:".data).length = 4 from rfl] at hkl
      interval_cases k <;> decide
    rw [h1]
    have h2 : pyReplace ("rdf:" ++ r) "cdao:" cdaoNS = "rdf:" ++ r := by
      apply pyReplace_no_occ
      rw [String.data_append]
      apply no_occ_concat _ _ _ (by decide) hrc
      intro k hk0 hkl
      rw [show ("cdao:".data).length = 5 from rfl] at hkl
      interval_cases k <;> decide
    rw [h2, pyReplace_head_only "rdf:" r rdfNS (by decide) hrr]
  · rw [qUriS_eq, pyReplace_no_occ _ _ _ hso, pyReplace_no_occ _ _ _ hsc,
      pyReplace_no_occ _ _ _ hsr]
  · rfl

/-- Witness for claim C8: the expansion at the concrete local name
has_Parent, and the unknown prefix foo left untouched. -/
theorem c8_quri_expansion_witness :
    qUriS ("cdao:" ++ "has_Parent") = cdaoNS ++ "has_Parent"
    ∧ qUriS "foo:bar" = "foo:bar" :=
  ⟨(c8_quri_expansion "has_Parent" "foo:bar" (by refine ⟨?_, ?_, ?_⟩ <;> decide)
      (by refine ⟨?_, ?_, ?_⟩ <;> decide)).2.1,
   (c8_quri_expansion "has_Parent" "foo:bar" (by refine ⟨?_, ?_, ?_⟩ <;> decide)
      (by refine ⟨?_, ?_, ?_⟩ <;> decide)).2.2.2.1⟩

end CDAOIO
